import Mathlib

/-!
Verification of the incremental indexing core of simple-files-vectorstore.

The definitions below are a shallow embedding of the TypeScript sources:
`src/vectorStore.ts` (class VectorStore and class IgnorePatternMatcher),
`src/fileWatcher.ts` (class FileWatcher) and `src/index.ts`
(class SimpleFilesVectorStore).  External collaborators (the HNSWLib
nearest-neighbour index, the embedding model, Node's fs/path modules,
minimatch, JSON.parse, setTimeout) are modelled at their boundary:
the backing index is represented by the list of documents it holds,
filesystem reads and glob matching are taken as parameters, and the
single debounce timer is represented by its scheduled fire time.
-/

namespace SFVS

/-- Document metadata, from `DocumentMetadata` in `src/types.ts`. -/
structure DocumentMetadata where
  source : String
  fileType : String
  lastModified : Int
deriving DecidableEq, Repr

/-- A document chunk; `ProcessedDocument` and the langchain `Document`
built from it in `addDocuments` carry the same content and metadata,
so both are represented by this one structure. -/
structure Doc where
  pageContent : String
  metadata : DocumentMetadata
deriving DecidableEq, Repr

/-- Aggregate statistics, from `StoreStats` in `src/types.ts`.
`documentsByType` is a JavaScript record, modelled as an
insertion-ordered association list. -/
structure StoreStats where
  totalDocuments : Int
  documentsByType : List (String × Int)
  watchedDirectories : List String
  filesBeingProcessed : Int
deriving DecidableEq, Repr

/-- State of the `VectorStore` class (`src/vectorStore.ts`).
`store` models the HNSWLib backing index by the list of documents it
contains; `none` means the index was never created.
`documentsBySource` models the insertion-ordered `Map<string, Document[]>`. -/
structure VectorStore where
  store : Option (List Doc)
  documentsBySource : List (String × List Doc)
  stats : StoreStats
deriving DecidableEq, Repr

/-- The fresh store built by the constructor. -/
def VectorStore.init : VectorStore :=
  { store := none
    documentsBySource := []
    stats := { totalDocuments := 0, documentsByType := [], watchedDirectories := [], filesBeingProcessed := 0 } }

/-! Association-list operations modelling JavaScript `Map` and record
field access.  Keys of a `Map` and of a record are unique and keep
insertion order; updating an existing key keeps its position, a new key
is appended. -/

/-- Lookup, as `Map.get` / record member access. -/
def alookup {α : Type} (k : String) : List (String × α) → Option α
  | [] => none
  | (k', v) :: rest => if k' = k then some v else alookup k rest

/-- `Map.set` / record assignment: replace the value at an existing key
in place, otherwise append the new entry. -/
def aset {α : Type} (m : List (String × α)) (k : String) (v : α) : List (String × α) :=
  match m with
  | [] => [(k, v)]
  | (k', v') :: rest => if k' = k then (k, v) :: rest else (k', v') :: aset rest k v

/-- `Map.delete` / `delete record[k]`: drop the entry with the given key. -/
def adel {α : Type} (m : List (String × α)) (k : String) : List (String × α) :=
  m.filter (fun p => p.1 ≠ k)

/-- Keys of an association list are pairwise distinct.  True for every
list reachable through `aset`/`adel`, mirroring the uniqueness of
JavaScript `Map` keys. -/
def keysNodup {α : Type} : List (String × α) → Bool
  | [] => true
  | (k, _) :: rest => (alookup k rest).isNone && keysNodup rest

@[simp] theorem alookup_nil {α : Type} (k : String) : alookup (α := α) k [] = none := rfl

theorem alookup_cons {α : Type} (k k0 : String) (v0 : α) (rest : List (String × α)) :
    alookup k ((k0, v0) :: rest) = if k0 = k then some v0 else alookup k rest := by
  rw [alookup]

theorem alookup_aset_self {α : Type} (m : List (String × α)) (k : String) (v : α) :
    alookup k (aset m k v) = some v := by
  induction m with
  | nil => simp [aset, alookup]
  | cons p rest ih =>
    obtain ⟨k', v'⟩ := p
    by_cases h : k' = k
    · simp [aset, h, alookup]
    · simp [aset, h, alookup, ih]

theorem alookup_aset_other {α : Type} (m : List (String × α)) (k k' : String) (v : α)
    (h : k' ≠ k) : alookup k' (aset m k v) = alookup k' m := by
  have hkk : ¬(k = k') := fun hh => h hh.symm
  induction m with
  | nil => simp [aset, alookup, hkk]
  | cons p rest ih =>
    obtain ⟨k0, v0⟩ := p
    by_cases h0 : k0 = k
    · subst h0
      simp [aset, alookup, hkk]
    · simp only [aset, if_neg h0, alookup]
      by_cases h1 : k0 = k'
      · simp [h1]
      · simp [h1, ih]

theorem alookup_adel_self {α : Type} (m : List (String × α)) (k : String) :
    alookup k (adel m k) = none := by
  induction m with
  | nil => simp [adel]
  | cons p rest ih =>
    obtain ⟨k0, v0⟩ := p
    by_cases h : k0 = k
    · simpa [adel, List.filter, h] using ih
    · simp only [adel, List.filter, h, decide_not] at ih ⊢
      simpa [alookup, h] using ih

theorem alookup_adel_other {α : Type} (m : List (String × α)) (k k' : String)
    (h : k' ≠ k) : alookup k' (adel m k) = alookup k' m := by
  induction m with
  | nil => simp [adel]
  | cons p rest ih =>
    obtain ⟨k0, v0⟩ := p
    by_cases h0 : k0 = k
    · subst h0
      have h1 : ¬(k0 = k') := fun hh => h hh.symm
      simp only [adel, List.filter] at ih ⊢
      simpa [alookup, h1] using ih
    · simp only [adel, List.filter, decide_not] at ih ⊢
      by_cases h1 : k0 = k'
      · simp [alookup, h0, h1, h]
      · simpa [alookup, h0, h1] using ih

/-! The `VectorStore` operations.  Each mutating method ends by calling
`scheduleSave`; the pure layer records that as a `Bool` ("a save was
scheduled"), and the timed layer below turns it into the debounce timer.
A method that can throw returns `Option` (`none` = exception). -/

/-- One step of the grouping loop in `addDocuments` (and of the
`Map`-based grouping in `updateDocuments`): push `doc` onto the group of
its source. -/
def pushBySource (m : List (String × List Doc)) (doc : Doc) : List (String × List Doc) :=
  aset m doc.metadata.source (((alookup doc.metadata.source m).getD []) ++ [doc])

/-- `VectorStore.addDocuments` (src/vectorStore.ts lines 40-72).
Creates the backing index on first use, otherwise appends; groups the
new documents by source; bumps `totalDocuments` and the per-type counts;
schedules a save. -/
def addDocuments (st : VectorStore) (docs : List Doc) : VectorStore × Bool :=
  let store' :=
    match st.store with
    | none => some docs
    | some existing => some (existing ++ docs)
  let dbs := docs.foldl pushBySource st.documentsBySource
  let byType := docs.foldl
    (fun r doc => aset r doc.metadata.fileType (((alookup doc.metadata.fileType r).getD 0) + 1))
    st.stats.documentsByType
  ({ st with
      store := store'
      documentsBySource := dbs
      stats := { st.stats with
        totalDocuments := st.stats.totalDocuments + docs.length
        documentsByType := byType } },
   true)

/-- All documents currently in the per-source map,
`Array.from(this.documentsBySource.values()).flat()`. -/
def flatDocs (m : List (String × List Doc)) : List Doc :=
  (m.map Prod.snd).flatten

/-- `VectorStore.removeDocumentsBySource` (src/vectorStore.ts lines 74-100).
No-op when the source is untracked or the index was never created.
Otherwise rebuilds the backing index from the remaining documents,
decrements the stats (clamped at zero, dropping a type whose count
reaches zero) and deletes the group.  Returns `none` for the state in
which the tracked group is empty: there `documents[0].metadata` throws. -/
def removeDocumentsBySource (st : VectorStore) (source : String) :
    Option (VectorStore × Bool) :=
  match alookup source st.documentsBySource, st.store with
  | none, _ => some (st, false)
  | some _, none => some (st, false)
  | some documents, some _ =>
    match documents with
    | [] => none
    | d0 :: _ =>
      let remaining := (flatDocs st.documentsBySource).filter
        (fun doc => doc.metadata.source ≠ source)
      let ft := d0.metadata.fileType
      let newCount := max 0 (((alookup ft st.stats.documentsByType).getD 0) - documents.length)
      let byType :=
        if newCount = 0 then adel st.stats.documentsByType ft
        else aset st.stats.documentsByType ft newCount
      some
        ({ st with
            store := some remaining
            documentsBySource := adel st.documentsBySource source
            stats := { st.stats with
              totalDocuments := st.stats.totalDocuments - documents.length
              documentsByType := byType } },
         true)

/-- The source grouping at the top of `updateDocuments`: a `Map` from
source to that source's documents, in first-occurrence order. -/
def groupBySource (docs : List Doc) : List (String × List Doc) :=
  docs.foldl pushBySource []

/-- The loop body of `updateDocuments`: replace one source by a
`removeDocumentsBySource` followed by `addDocuments` with that source's
new documents. -/
def upStep (s : VectorStore) (g : String × List Doc) : Option VectorStore := do
  let r ← removeDocumentsBySource s g.1
  pure (addDocuments r.1 g.2).1

/-- `VectorStore.updateDocuments` (src/vectorStore.ts lines 102-124).
Empty input returns immediately; otherwise every distinct source is
replaced by `upStep`, and a save is scheduled. -/
def updateDocuments (st : VectorStore) (docs : List Doc) :
    Option (VectorStore × Bool) :=
  if docs.isEmpty then some (st, false)
  else do
    let st' ← (groupBySource docs).foldlM upStep st
    pure (st', true)

/-- A search hit, from `SearchResult` in `src/types.ts`.  The floating
point score is modelled as an integer-valued placeholder; no claim
depends on score arithmetic. -/
structure SearchResult where
  content : String
  metadata : DocumentMetadata
  score : Int
deriving DecidableEq, Repr

/-- `VectorStore.similaritySearch` (src/vectorStore.ts lines 126-143).
The nearest-neighbour query itself is the external collaborator
`backend`; the method throws when the index was never created. -/
def similaritySearch (backend : List Doc → String → Nat → List (Doc × Int))
    (st : VectorStore) (query : String) (limit : Nat) :
    Except String (List SearchResult) :=
  match st.store with
  | none => Except.error "Vector store not initialized"
  | some docs =>
    Except.ok ((backend docs query limit).map
      (fun r => { content := r.1.pageContent, metadata := r.1.metadata, score := r.2 }))

/-- `VectorStore.getAllDocuments` (src/vectorStore.ts lines 145-162).
Throws when the index was never created, otherwise returns up to
`limit` documents drawn from the per-source map with a constant score. -/
def getAllDocuments (st : VectorStore) (limit : Nat) :
    Except String (List SearchResult) :=
  match st.store with
  | none => Except.error "Vector store not initialized"
  | some _ =>
    Except.ok (((flatDocs st.documentsBySource).take limit).map
      (fun d => { content := d.pageContent, metadata := d.metadata, score := 1 }))

/-- `VectorStore.load` (src/vectorStore.ts lines 179-190), successful
case: both the backing index and the stats are restored from disk
(their parsed contents are the parameters), while `documentsBySource`
is left as it was. -/
def loadStore (st : VectorStore) (loadedDocs : List Doc) (loadedStats : StoreStats) :
    VectorStore :=
  { st with store := some loadedDocs, stats := loadedStats }

/-! The debounce timer (`scheduleSave`, src/vectorStore.ts lines 209-223).
Time is discrete (`Int`); the single `saveTimer` is modelled by its fire
time, `SAVE_DELAY` after the `scheduleSave` call that armed it.  When the
timer fires it performs a save if the backing index exists and clears
itself.  Mutations arriving before the fire time re-arm the timer
(`clearTimeout` + fresh `setTimeout`). -/

/-- The fixed debounce delay (5 time units; 5000 ms in the source). -/
def SAVE_DELAY : Int := 5

/-- A mutating `VectorStore` call. -/
inductive MutOp where
  | addOp (docs : List Doc)
  | removeOp (source : String)
  | updateOp (docs : List Doc)
deriving DecidableEq, Repr

/-- Apply a mutating call to the pure store state; the `Bool` records
whether the call reached `scheduleSave`. -/
def applyPure (st : VectorStore) : MutOp → Option (VectorStore × Bool)
  | MutOp.addOp docs => some (addDocuments st docs)
  | MutOp.removeOp source => removeDocumentsBySource st source
  | MutOp.updateOp docs => updateDocuments st docs

/-- A `VectorStore` together with its debounce timer and the count of
completed persistence writes. -/
structure TimedStore where
  vs : VectorStore
  saveTimer : Option Int
  savesCompleted : Nat
deriving DecidableEq, Repr

/-- Let the timer fire if its fire time has been reached: the callback
saves only when the backing index exists, and nulls the timer. -/
def fireTimerIfDue (ts : TimedStore) (now : Int) : TimedStore :=
  match ts.saveTimer with
  | some f =>
    if f ≤ now then
      { ts with
          saveTimer := none
          savesCompleted := ts.savesCompleted + (if ts.vs.store.isSome then 1 else 0) }
    else ts
  | none => ts

/-- A mutating call arriving at time `now`: any due timer has fired
first, then the call runs, and if it reached `scheduleSave` the timer is
re-armed for `now + SAVE_DELAY`. -/
def applyMutOp (ts : TimedStore) (now : Int) (op : MutOp) : Option TimedStore :=
  let t1 := fireTimerIfDue ts now
  (applyPure t1.vs op).map (fun r =>
    { vs := r.1
      saveTimer := if r.2 then some (now + SAVE_DELAY) else t1.saveTimer
      savesCompleted := t1.savesCompleted })

/-- Run a timestamped sequence of mutating calls. -/
def runOps (ts : TimedStore) : List (Int × MutOp) → Option TimedStore
  | [] => some ts
  | (t, op) :: rest => do
    let ts' ← applyMutOp ts t op
    runOps ts' rest

/-- Total number of persistence writes once the system goes quiet: the
completed saves plus the still-armed timer, which will fire and save
provided the backing index exists. -/
def totalWrites (ts : TimedStore) : Nat :=
  ts.savesCompleted + (if ts.saveTimer.isSome && ts.vs.store.isSome then 1 else 0)

/-- A mutating call is effective when it reaches `scheduleSave`:
`addDocuments` always does; `removeDocumentsBySource` does when the
source is tracked with a nonempty group and the backing index exists;
`updateDocuments` does when its input is nonempty and no step throws. -/
def opEffective (st : VectorStore) : MutOp → Bool
  | MutOp.addOp _ => true
  | MutOp.removeOp source =>
    (match alookup source st.documentsBySource with
     | some (_ :: _) => true
     | _ => false) && st.store.isSome
  | MutOp.updateOp docs => !docs.isEmpty && (updateDocuments st docs).isSome

/-- The pure store state after a mutating call (junk when the call
throws; only used beneath `opEffective`, where the call succeeds). -/
def nextVS (st : VectorStore) (op : MutOp) : VectorStore :=
  ((applyPure st op).getD (st, false)).1

/-- Every call of the sequence is effective in the state it encounters. -/
def effectiveSeq (st : VectorStore) : List (Int × MutOp) → Bool
  | [] => true
  | (_, op) :: rest => opEffective st op && effectiveSeq (nextVS st op) rest

/-- Consecutive call times strictly increase yet stay within the
debounce delay of the previous call. -/
def burstTimes (prev : Int) : List Int → Bool
  | [] => true
  | t :: rest => (prev < t && t < prev + SAVE_DELAY) && burstTimes t rest

/-- Consecutive call times are separated by more than the debounce delay. -/
def spacedTimes (prev : Int) : List Int → Bool
  | [] => true
  | t :: rest => (prev + SAVE_DELAY < t) && spacedTimes t rest

/-! The file watching coordinator (`FileWatcher`, src/fileWatcher.ts).
The in-flight set is `processingQueue`; `processedPaths` tracks paths
known to the index.  The on-change callback is an external collaborator:
for one invocation we only need whether it returned or threw. -/

/-- Event kinds delivered to `handleFileChange`. -/
inductive EvKind where
  | evAdd
  | evChange
  | evUnlink
deriving DecidableEq, Repr

/-- Watcher state: the two `Set<string>`s of `FileWatcher`, as
insertion-ordered duplicate-free lists. -/
structure WatcherState where
  processedPaths : List String
  processingQueue : List String
deriving DecidableEq, Repr

/-- `Set.add`: append if absent. -/
def setAdd (l : List String) (x : String) : List String :=
  if x ∈ l then l else l ++ [x]

/-- `Set.delete`: remove the element. -/
def setDel (l : List String) (x : String) : List String :=
  l.filter (fun y => y ≠ x)

/-- Outcome of one on-change callback invocation. -/
inductive CbOutcome where
  | cbOk
  | cbThrows
deriving DecidableEq, Repr

/-- The synchronous entry of `handleFileChange` (src/fileWatcher.ts
lines 115-123): a path already in flight is dropped (`none`), otherwise
it is put in flight before the first suspension point. -/
def enterInFlight (w : WatcherState) (filePath : String) : Option WatcherState :=
  if filePath ∈ w.processingQueue then none
  else some { w with processingQueue := setAdd w.processingQueue filePath }

/-- The rest of `handleFileChange` (lines 125-137) once the callback has
come back with outcome `cb`: on success the tracked set is updated by
event kind; in every case the `finally` clause removes the path from
the in-flight set. -/
def finishInFlight (w : WatcherState) (kind : EvKind) (filePath : String)
    (cb : CbOutcome) : WatcherState :=
  let w1 :=
    match cb with
    | CbOutcome.cbThrows => w
    | CbOutcome.cbOk =>
      match kind with
      | EvKind.evUnlink => { w with processedPaths := setDel w.processedPaths filePath }
      | _ => { w with processedPaths := setAdd w.processedPaths filePath }
  { w1 with processingQueue := setDel w1.processingQueue filePath }

/-- `FileWatcher.handleFileChange` (src/fileWatcher.ts lines 115-138)
for one event whose callback behaves as `cb`.  Returns the new state,
the number of callback invocations (0 or 1), and whether the callback's
exception propagated to the caller. -/
def handleFileChange (w : WatcherState) (kind : EvKind) (filePath : String)
    (cb : CbOutcome) : WatcherState × Nat × Bool :=
  match enterInFlight w filePath with
  | none => (w, 0, false)
  | some w1 =>
    (finishInFlight w1 kind filePath cb, 1,
     match cb with
     | CbOutcome.cbThrows => true
     | CbOutcome.cbOk => false)

/-- A burst of further notifications for the same path, arriving while
it is in flight; returns the final state and the total number of
callback invocations they cause. -/
def runBurstCalls (w : WatcherState) (filePath : String)
    (calls : List (EvKind × CbOutcome)) : WatcherState × Nat :=
  calls.foldl
    (fun acc c =>
      let r := handleFileChange acc.1 c.1 filePath c.2
      (r.1, acc.2 + r.2.1))
    (w, 0)

/-! String and path helpers.  These model the Node `path.posix` module
and the JavaScript string methods used by `IgnorePatternMatcher`
(split, includes, endsWith, basename, normalize) at the level of the
character list underlying a `String`. -/

/-- JavaScript `s.split(c)`. -/
def splitChar (c : Char) : List Char → List (List Char)
  | [] => [[]]
  | x :: xs =>
    let r := splitChar c xs
    if x = c then [] :: r
    else
      match r with
      | [] => [[x]]
      | h :: t => (x :: h) :: t

/-- Inverse of `splitChar`: interleave the separator. -/
def joinChar (c : Char) : List (List Char) → List Char
  | [] => []
  | [l] => l
  | l :: ls => l ++ c :: joinChar c ls

/-- `path.split(path.sep)` on a string. -/
def pathParts (s : String) : List String :=
  (splitChar '/' s.data).map String.mk

/-- Join segments with the path separator. -/
def joinParts (ps : List String) : String :=
  String.mk (joinChar '/' (ps.map String.data))

/-- Does the string contain the character (JavaScript `includes` with a
one-character needle)? -/
def strHasChar (s : String) (c : Char) : Bool :=
  s.data.any (fun x => x = c)

/-- Does the string start with `'/'`? -/
def headIsSlash (s : String) : Bool :=
  match s.data with
  | c :: _ => c = '/'
  | [] => false

/-- Does the string end with `'/'`? -/
def lastIsSlash (s : String) : Bool :=
  match s.data.getLast? with
  | some c => c = '/'
  | none => false

/-- JavaScript `s.includes(sub)`. -/
def strIncludes (s sub : String) : Bool :=
  decide (List.IsInfix sub.data s.data)

/-- JavaScript `s.endsWith(sub)`. -/
def strEnds (s sub : String) : Bool :=
  decide (List.IsSuffix sub.data s.data)

/-- The segment-resolution loop of `path.posix.normalize`: empty and
`"."` segments vanish; `".."` pops the previous segment, except that a
relative path keeps leading `".."`s while an absolute path drops them. -/
def normSegs (allowUp : Bool) (acc : List String) : List String → List String
  | [] => acc.reverse
  | s :: rest =>
    if s = "" ∨ s = "." then normSegs allowUp acc rest
    else if s = ".." then
      match acc with
      | [] => normSegs allowUp (if allowUp then [".."] else []) rest
      | a :: tl =>
        if a = ".." then normSegs allowUp (".." :: a :: tl) rest
        else normSegs allowUp tl rest
    else normSegs allowUp (s :: acc) rest

/-- Modelled from the external Node `path.posix.normalize`: resolve
`"."`/`".."`/repeated separators, keeping a leading separator of an
absolute path and a single trailing separator. -/
def normalizeStr (p : String) : String :=
  if p = "" then "." else
  let abs := headIsSlash p
  let trail := lastIsSlash p
  let segs := normSegs (!abs) [] (pathParts p)
  if abs then
    if segs.isEmpty then "/"
    else "/" ++ joinParts segs ++ (if trail then "/" else "")
  else
    if segs.isEmpty then (if trail then "./" else ".")
    else joinParts segs ++ (if trail then "/" else "")

/-- Modelled from the external Node `path.posix.basename`: the final
nonempty segment, ignoring trailing separators. -/
def basenameStr (p : String) : String :=
  (((pathParts p).reverse).dropWhile (fun seg => seg = "")).headD ""

/-- Modelled from the external Node `path.posix.join` of two parts. -/
def pathJoin (a b : String) : String :=
  normalizeStr (a ++ "/" ++ b)

/-- State of `IgnorePatternMatcher` (src/vectorStore.ts lines 233-260):
patterns from the optional ignore file, the loaded flag, and the
normalized watched roots. -/
structure IgnoreMatcher where
  patterns : List String
  loaded : Bool
  watchedDirectories : List String
deriving DecidableEq, Repr

/-- The per-pattern body of the matching loop in
`IgnorePatternMatcher.shouldIgnore` (src/vectorStore.ts lines 268-324).
`mm` is the external `minimatch` collaborator.  An unanchored pattern
matches on basename equality, on any path part equality, on substring
containment after a separator, or (for wildcard patterns) by glob; an
anchored pattern is joined onto each watched root and glob-matched; a
trailing-separator pattern additionally matches a directory whose
basename equals the pattern without its final separator. -/
def patternMatches (mm : String → String → Bool) (dirs : List String)
    (normalizedPath : String) (isDirectory : Bool) (pattern : String) : Bool :=
  (if headIsSlash pattern then
    let rest := String.mk (pattern.data.drop 1)
    dirs.any (fun d => mm normalizedPath (pathJoin d rest))
  else
    let bn := basenameStr normalizedPath
    decide (bn = pattern) ||
    (pathParts normalizedPath).any (fun part => decide (part = pattern)) ||
    strIncludes normalizedPath ("/" ++ pattern) ||
    strEnds normalizedPath ("/" ++ pattern) ||
    ((strHasChar pattern '*' || strHasChar pattern '?' || strHasChar pattern '[') &&
      (mm normalizedPath ("**/" ++ pattern) || mm bn pattern)))
  ||
  (isDirectory && lastIsSlash pattern &&
    decide (basenameStr normalizedPath = String.mk pattern.data.dropLast))

/-- `IgnorePatternMatcher.shouldIgnore` (src/vectorStore.ts lines
262-327): false when nothing is loaded or no patterns exist, otherwise
true as soon as any pattern matches the normalized path. -/
def shouldIgnore (mm : String → String → Bool) (m : IgnoreMatcher)
    (filePath : String) (isDirectory : Bool) : Bool :=
  if !m.loaded || m.patterns.isEmpty then false
  else
    let np := normalizeStr filePath
    m.patterns.any (patternMatches mm m.watchedDirectories np isDirectory)

/-! Startup configuration (`SimpleFilesVectorStore`, src/index.ts).
File reading and JSON parsing are external; they enter as parameters.
`runStartup` models the constructor's directory setup plus the
validation prefix of `run()` (src/index.ts lines 339-357): the result is
`Except.error` exactly when startup aborts. -/

/-- A parsed JSON value. -/
inductive Json where
  | jnull
  | jbool (b : Bool)
  | jnum (n : Int)
  | jstr (s : String)
  | jarr (items : List Json)
  | jobj (fields : List (String × Json))

/-- JavaScript member access `config.watchList`: a value on an object,
nothing otherwise (undefined on non-objects; the `TypeError` thrown on
`null` lands in the same catch clause and also aborts). -/
def getField : Json → String → Option Json
  | Json.jobj fields, k => alookup k fields
  | _, _ => none

/-- An environment variable is truthy when present and nonempty. -/
def envTruthy : Option String → Bool
  | none => false
  | some s => !(s = "")

/-- JavaScript `s.split(',')`. -/
def splitComma (s : String) : List String :=
  (splitChar ',' s.data).map String.mk

/-- JavaScript `s.trim()`. -/
def jsTrim (s : String) : String :=
  String.mk (((s.data.dropWhile Char.isWhitespace).reverse.dropWhile Char.isWhitespace).reverse)

/-- `SimpleFilesVectorStore.loadWatchConfigFile` (src/index.ts lines
321-337): read the file, parse it, and demand a nonempty `watchList`
array; every failure becomes a wrapped startup error. -/
def loadWatchConfigFile (readFile : String → Except String String)
    (parseJson : String → Option Json) (configFilePath : String) :
    Except String (List Json) :=
  match readFile configFilePath with
  | Except.error e => Except.error ("Failed to load watch config file: " ++ e)
  | Except.ok content =>
    match parseJson content with
    | none => Except.error "Failed to load watch config file: JSON parse error"
    | some config =>
      match getField config "watchList" with
      | some (Json.jarr items) =>
        if items.isEmpty then
          Except.error ("Failed to load watch config file: Invalid watch config file: " ++ configFilePath)
        else Except.ok items
      | _ => Except.error ("Failed to load watch config file: Invalid watch config file: " ++ configFilePath)

/-- The startup validation: the constructor's directory initialization
(src/index.ts lines 52-67) followed by the config-file loading and
directory check of `run()` (lines 339-357).  `Except.error` means the
process aborts before watching starts. -/
def runStartup (watchConfigFile envDirs : Option String)
    (readFile : String → Except String String)
    (parseJson : String → Option Json) : Except String Unit :=
  let initialDirs : List String :=
    if envTruthy watchConfigFile then []
    else if envTruthy envDirs then (splitComma (envDirs.getD "")).map jsTrim
    else []
  match (if envTruthy watchConfigFile then
           some (loadWatchConfigFile readFile parseJson (watchConfigFile.getD ""))
         else none) with
  | some (Except.error e) => Except.error ("Failed to load watch config file. " ++ e)
  | some (Except.ok items) =>
    if items.isEmpty then
      Except.error "No directories specified. Set either WATCH_DIRECTORIES environment variable or provide a WATCH_CONFIG_FILE."
    else Except.ok ()
  | none =>
    if initialDirs.isEmpty then
      Except.error "No directories specified. Set either WATCH_DIRECTORIES environment variable or provide a WATCH_CONFIG_FILE."
    else Except.ok ()

/-- Is the computation an error? -/
def isErr {ε α : Type} : Except ε α → Bool
  | Except.error _ => true
  | Except.ok _ => false

/-! ### Error behavior of the query surface (claims C6 and C10) -/

/-- Claim C6: if no documents have ever been added (the backing index
was never initialized), `similaritySearch` fails with a
"not initialized" condition, for every query string, every limit and
every behavior of the external nearest-neighbour backend. -/
theorem similaritySearch_not_ready (st : VectorStore) (h : st.store = none)
    (backend : List Doc → String → Nat → List (Doc × Int))
    (query : String) (limit : Nat) :
    similaritySearch backend st query limit =
      Except.error "Vector store not initialized" := by
  simp [similaritySearch, h]

theorem similaritySearch_not_ready_witness :
    VectorStore.init.store = none ∧
    similaritySearch (fun _ _ _ => []) VectorStore.init "query" 5 =
      Except.error "Vector store not initialized" :=
  ⟨rfl, similaritySearch_not_ready VectorStore.init rfl (fun _ _ _ => []) "query" 5⟩

/-- Claim C10: `getAllDocuments` throws a "Vector store not initialized"
error whenever the backing index has never been created, for every
limit, rather than returning an empty list. -/
theorem getAllDocuments_not_ready (st : VectorStore) (h : st.store = none)
    (limit : Nat) :
    getAllDocuments st limit = Except.error "Vector store not initialized" ∧
    ∀ res, getAllDocuments st limit ≠ Except.ok res := by
  refine ⟨by simp [getAllDocuments, h], ?_⟩
  intro res hres
  rw [show getAllDocuments st limit = Except.error "Vector store not initialized" by
    simp [getAllDocuments, h]] at hres
  exact Except.noConfusion hres

theorem getAllDocuments_not_ready_witness :
    VectorStore.init.store = none ∧
    (getAllDocuments VectorStore.init 20 = Except.error "Vector store not initialized" ∧
     ∀ res, getAllDocuments VectorStore.init 20 ≠ Except.ok res) :=
  ⟨rfl, getAllDocuments_not_ready VectorStore.init rfl 20⟩

/-! ### Frame property of `removeDocumentsBySource` (claim C8) -/

/-- Claim C8: for every source path not currently present in the
per-source map, `removeDocumentsBySource` is a no-op: the returned
state is the input state unchanged (backing index, per-source map,
`totalDocuments` and `documentsByType` included) and the `false` flag
records that `scheduleSave` was never reached. -/
theorem removeDocumentsBySource_unknown_noop (st : VectorStore) (source : String)
    (h : alookup source st.documentsBySource = none) :
    removeDocumentsBySource st source = some (st, false) := by
  unfold removeDocumentsBySource
  rw [h]

theorem removeDocumentsBySource_unknown_noop_witness :
    alookup "/ghost" VectorStore.init.documentsBySource = none ∧
    removeDocumentsBySource VectorStore.init "/ghost" = some (VectorStore.init, false) :=
  ⟨rfl, removeDocumentsBySource_unknown_noop VectorStore.init "/ghost" rfl⟩

/-! ### Startup validation (claim C9) -/

/-- The supplied watch config file is malformed or its `watchList` is
unusable: the file is unreadable, the JSON fails to parse, or the parsed
value has no `watchList` field holding a nonempty array. -/
def configInvalid (readFile : String → Except String String)
    (parseJson : String → Option Json) (path : String) : Bool :=
  match readFile path with
  | Except.error _ => true
  | Except.ok content =>
    match parseJson content with
    | none => true
    | some j =>
      match getField j "watchList" with
      | some (Json.jarr items) => items.isEmpty
      | _ => true

theorem loadWatchConfigFile_err (readFile : String → Except String String)
    (parseJson : String → Option Json) (path : String)
    (h : configInvalid readFile parseJson path = true) :
    isErr (loadWatchConfigFile readFile parseJson path) = true := by
  unfold configInvalid at h
  unfold loadWatchConfigFile
  cases hr : readFile path with
  | error e => simp [isErr]
  | ok content =>
    rw [hr] at h
    cases hp : parseJson content with
    | none => simp [isErr, hp]
    | some j =>
      simp only [hp] at h
      cases hf : getField j "watchList" with
      | none => simp [isErr, hp, hf]
      | some v =>
        simp only [hf] at h
        cases v with
        | jarr items =>
          have h' : items = [] := List.isEmpty_iff.mp h
          subst h'
          simp [isErr, hp, hf]
        | jnull => simp [isErr, hp, hf]
        | jbool b => simp [isErr, hp, hf]
        | jnum n => simp [isErr, hp, hf]
        | jstr s => simp [isErr, hp, hf]
        | jobj fields => simp [isErr, hp, hf]

/-- Claim C9: startup aborts (`run` rejects) whenever the watch
configuration is missing or empty — no config file in use and no
nonempty environment directory list — and whenever a supplied watch
config file is malformed or its `watchList` field is missing, not an
array, or empty. -/
theorem runStartup_aborts_spec (cfg env : Option String)
    (readFile : String → Except String String) (parseJson : String → Option Json)
    (h : (envTruthy cfg = false ∧ envTruthy env = false) ∨
         (envTruthy cfg = true ∧ configInvalid readFile parseJson (cfg.getD "") = true)) :
    isErr (runStartup cfg env readFile parseJson) = true := by
  rcases h with ⟨h1, h2⟩ | ⟨h1, h2⟩
  · simp [runStartup, h1, h2, isErr]
  · have he := loadWatchConfigFile_err readFile parseJson (cfg.getD "") h2
    cases hl : loadWatchConfigFile readFile parseJson (cfg.getD "") with
    | error e => simp [runStartup, h1, hl, isErr]
    | ok items => rw [hl] at he; simp [isErr] at he

theorem runStartup_aborts_spec_witness :
    ((envTruthy (none : Option String) = false ∧ envTruthy (none : Option String) = false) ∨
      (envTruthy (none : Option String) = true ∧
       configInvalid (fun _ => Except.error "ENOENT") (fun _ => none) ((none : Option String).getD "") = true)) ∧
    isErr (runStartup none none (fun _ => Except.error "ENOENT") (fun _ => none)) = true :=
  ⟨Or.inl ⟨rfl, rfl⟩,
   runStartup_aborts_spec none none (fun _ => Except.error "ENOENT") (fun _ => none)
     (Or.inl ⟨rfl, rfl⟩)⟩

/-! ### Grouping, flattening and stats machinery (claims C3, C4, C5) -/

/-- Number of documents of one file type in a list. -/
def countType (τ : String) (docs : List Doc) : Nat :=
  (docs.filter (fun d => d.metadata.fileType = τ)).length

/-- The group found for one source after pushing a batch of documents:
an existing group is extended, a missing one is created when the batch
contributes to it. -/
def combineGroup (old : Option (List Doc)) (f : List Doc) : Option (List Doc) :=
  match old with
  | some l => some (l ++ f)
  | none => if f.isEmpty then none else some f

/-- A source group is nonempty and all its documents share one file
type (with the group's first document, as `removeDocumentsBySource`
assumes when it decrements the stats). -/
def groupHomog : List Doc → Bool
  | [] => false
  | d :: ds => ds.all (fun d' => d'.metadata.fileType = d.metadata.fileType)

/-- Every group of the per-source map is nonempty and homogeneous. -/
def groupsWF (m : List (String × List Doc)) : Bool :=
  m.all (fun g => groupHomog g.2)

/-- The stats agree with the per-source map (decidable form): the
total is the number of documents across all groups, every
`documentsByType` entry holds the exact per-type count and is nonzero,
and every indexed document's type has an entry. -/
def statsWF (st : VectorStore) : Bool :=
  (st.stats.totalDocuments == ((flatDocs st.documentsBySource).length : Int)) &&
  st.stats.documentsByType.all (fun e =>
    (e.2 == (countType e.1 (flatDocs st.documentsBySource) : Int)) && !(e.2 == 0)) &&
  (flatDocs st.documentsBySource).all (fun d =>
    (alookup d.metadata.fileType st.stats.documentsByType).isSome)

/-- A well-formed store state: map keys are unique, groups are nonempty
and fileType-homogeneous, and the stats agree with the map.  Every
state reachable by the store's own operations from a fresh store under
per-source-homogeneous inputs satisfies this. -/
def wellFormed (st : VectorStore) : Bool :=
  keysNodup st.documentsBySource && groupsWF st.documentsBySource && statsWF st

/-- The claim's statement of stats consistency: `totalDocuments` is the
number of currently indexed documents and, for every file type, the
`documentsByType` entry is exactly the number of indexed documents of
that type, with no entry for a type of count zero. -/
def statsMatch (st : VectorStore) : Prop :=
  st.stats.totalDocuments = ((flatDocs st.documentsBySource).length : Int) ∧
  ∀ τ : String, alookup τ st.stats.documentsByType =
    (if countType τ (flatDocs st.documentsBySource) = 0 then none
     else some ((countType τ (flatDocs st.documentsBySource) : Int)))

theorem alookup_mem {α : Type} (m : List (String × α)) (k : String) (v : α)
    (h : alookup k m = some v) : (k, v) ∈ m := by
  induction m with
  | nil => exact Option.noConfusion h
  | cons p rest ih =>
    obtain ⟨k0, v0⟩ := p
    unfold alookup at h
    by_cases h0 : k0 = k
    · rw [if_pos h0] at h
      injection h with h'
      rw [← h0, ← h']
      exact List.mem_cons_self _ _
    · rw [if_neg h0] at h
      exact List.mem_cons_of_mem _ (ih h)

theorem alookup_none_keys {α : Type} (m : List (String × α)) (k : String)
    (h : alookup k m = none) : ∀ p ∈ m, p.1 ≠ k := by
  induction m with
  | nil => intro p hp; exact absurd hp (List.not_mem_nil p)
  | cons q rest ih =>
    obtain ⟨k0, v0⟩ := q
    unfold alookup at h
    by_cases h0 : k0 = k
    · rw [if_pos h0] at h; exact Option.noConfusion h
    · rw [if_neg h0] at h
      intro p hp
      rcases List.mem_cons.mp hp with he | hm
      · rw [he]; exact h0
      · exact ih h p hm

theorem adel_eq_self {α : Type} (m : List (String × α)) (k : String)
    (h : alookup k m = none) : adel m k = m := by
  unfold adel
  refine List.filter_eq_self.mpr ?_
  intro p hp
  simp only [ne_eq, decide_eq_true_eq]
  exact alookup_none_keys m k h p hp

theorem aset_aset {α : Type} (m : List (String × α)) (k : String) (v v' : α) :
    aset (aset m k v) k v' = aset m k v' := by
  induction m with
  | nil => simp [aset]
  | cons p rest ih =>
    obtain ⟨k0, v0⟩ := p
    by_cases h0 : k0 = k
    · simp [aset, h0]
    · simp [aset, h0, ih]

theorem aset_eq_self {α : Type} (m : List (String × α)) (k : String) (v : α)
    (h : alookup k m = some v) : aset m k v = m := by
  induction m with
  | nil => exact Option.noConfusion h
  | cons p rest ih =>
    obtain ⟨k0, v0⟩ := p
    unfold alookup at h
    by_cases h0 : k0 = k
    · rw [if_pos h0] at h
      injection h with h'
      simp [aset, h0, h']
    · rw [if_neg h0] at h
      simp [aset, h0, ih h]

theorem aset_append {α : Type} (m : List (String × α)) (k : String) (v : α)
    (h : alookup k m = none) : aset m k v = m ++ [(k, v)] := by
  induction m with
  | nil => simp [aset]
  | cons p rest ih =>
    obtain ⟨k0, v0⟩ := p
    unfold alookup at h
    by_cases h0 : k0 = k
    · rw [if_pos h0] at h; exact Option.noConfusion h
    · rw [if_neg h0] at h
      simp [aset, h0, ih h]

theorem keysNodup_aset {α : Type} (m : List (String × α)) (k : String) (v : α)
    (h : keysNodup m = true) : keysNodup (aset m k v) = true := by
  induction m with
  | nil => simp [aset, keysNodup, alookup]
  | cons p rest ih =>
    obtain ⟨k0, v0⟩ := p
    simp only [keysNodup, Bool.and_eq_true] at h
    obtain ⟨h1, h2⟩ := h
    by_cases h0 : k0 = k
    · subst h0
      simp [aset, keysNodup, h1, h2]
    · simp only [aset, if_neg h0]
      simp [keysNodup, alookup_aset_other rest k k0 v h0, h1, ih h2]

theorem keysNodup_adel {α : Type} (m : List (String × α)) (k : String)
    (h : keysNodup m = true) : keysNodup (adel m k) = true := by
  induction m with
  | nil => simpa [adel] using h
  | cons p rest ih =>
    obtain ⟨k0, v0⟩ := p
    simp only [keysNodup, Bool.and_eq_true] at h
    obtain ⟨h1, h2⟩ := h
    by_cases h0 : k0 = k
    · have : adel ((k0, v0) :: rest) k = adel rest k := by
        simp [adel, List.filter_cons, h0]
      rw [this]
      exact ih h2
    · have : adel ((k0, v0) :: rest) k = (k0, v0) :: adel rest k := by
        simp [adel, List.filter_cons, h0]
      rw [this]
      simp [keysNodup, alookup_adel_other rest k k0 h0, h1, ih h2]

theorem keysNodup_foldl_push (docs : List Doc) :
    ∀ m, keysNodup m = true → keysNodup (docs.foldl pushBySource m) = true := by
  induction docs with
  | nil => intro m hm; exact hm
  | cons d rest ih =>
    intro m hm
    exact ih (pushBySource m d) (keysNodup_aset m _ _ hm)

theorem groupBySource_keysNodup (docs : List Doc) :
    keysNodup (groupBySource docs) = true :=
  keysNodup_foldl_push docs [] rfl

theorem alookup_foldl_push (docs : List Doc) :
    ∀ (m : List (String × List Doc)) (s : String),
    alookup s (docs.foldl pushBySource m) =
      combineGroup (alookup s m) (docs.filter (fun d => d.metadata.source = s)) := by
  induction docs with
  | nil =>
    intro m s
    cases h : alookup s m <;> simp [combineGroup, h]
  | cons d rest ih =>
    intro m s
    rw [List.foldl_cons, ih]
    by_cases hs : d.metadata.source = s
    · have hpush : alookup s (pushBySource m d) =
          some ((alookup s m).getD [] ++ [d]) := by
        unfold pushBySource
        rw [hs]
        exact alookup_aset_self m s _
      rw [hpush, List.filter_cons_of_pos (by simp [hs])]
      cases h : alookup s m <;>
        simp [combineGroup, h, List.append_assoc]
    · have hpush : alookup s (pushBySource m d) = alookup s m := by
        unfold pushBySource
        exact alookup_aset_other m _ s _ (fun he => hs he.symm)
      rw [hpush, List.filter_cons_of_neg (by simp [hs])]

theorem alookup_groupBySource (docs : List Doc) (s : String) :
    alookup s (groupBySource docs) =
      (if (docs.filter (fun d => d.metadata.source = s)).isEmpty then none
       else some (docs.filter (fun d => d.metadata.source = s))) := by
  unfold groupBySource
  rw [alookup_foldl_push docs [] s]
  rfl

theorem combineGroup_nil (old : Option (List Doc)) : combineGroup old [] = old := by
  cases old <;> simp [combineGroup]

theorem alookup_isSome_of_mem {α : Type} (m : List (String × α)) (k : String) (v : α)
    (h : (k, v) ∈ m) : (alookup k m).isSome = true := by
  induction m with
  | nil => exact absurd h (List.not_mem_nil _)
  | cons p rest ih =>
    rcases List.mem_cons.mp h with he | hm
    · rw [← he]
      simp [alookup]
    · obtain ⟨k0, v0⟩ := p
      unfold alookup
      by_cases h0 : k0 = k <;> simp [h0, ih hm]

theorem mem_alookup_of_nodup {α : Type} (m : List (String × α)) (k : String) (v : α)
    (hnd : keysNodup m = true) (h : (k, v) ∈ m) : alookup k m = some v := by
  induction m with
  | nil => exact absurd h (List.not_mem_nil _)
  | cons p rest ih =>
    obtain ⟨k0, v0⟩ := p
    simp only [keysNodup, Bool.and_eq_true] at hnd
    obtain ⟨h1, h2⟩ := hnd
    rcases List.mem_cons.mp h with he | hm
    · rw [Prod.mk.injEq] at he
      unfold alookup
      rw [if_pos he.1.symm, he.2]
    · by_cases h0 : k0 = k
      · subst h0
        have hsome := alookup_isSome_of_mem rest k0 v hm
        rw [Option.isNone_iff_eq_none.mp h1] at hsome
        exact Bool.noConfusion hsome
      · unfold alookup
        rw [if_neg h0]
        exact ih h2 hm

theorem groupBySource_sources (docs : List Doc) (g : String × List Doc)
    (hg : g ∈ groupBySource docs) :
    g.2 = docs.filter (fun d => d.metadata.source = g.1) ∧
    g.2 ≠ [] ∧ (∀ d ∈ g.2, d.metadata.source = g.1) := by
  obtain ⟨s, l⟩ := g
  have hnd := groupBySource_keysNodup docs
  have hlook := mem_alookup_of_nodup _ s l hnd hg
  rw [alookup_groupBySource] at hlook
  by_cases hf : (docs.filter (fun d => d.metadata.source = s)).isEmpty = true
  · rw [if_pos hf] at hlook
    exact Option.noConfusion hlook
  · rw [if_neg hf] at hlook
    injection hlook with h'
    refine ⟨h'.symm, ?_, ?_⟩
    · show l ≠ []
      intro hnil
      rw [hnil] at h'
      exact hf (by rw [h']; rfl)
    · show ∀ d ∈ l, d.metadata.source = s
      intro d hd
      rw [← h'] at hd
      have hm := List.mem_filter.mp hd
      simpa using hm.2

theorem flatDocs_push_perm (d : Doc) (m : List (String × List Doc)) :
    List.Perm (flatDocs (pushBySource m d)) (flatDocs m ++ [d]) := by
  induction m with
  | nil => simp [pushBySource, aset, flatDocs]
  | cons p rest ih =>
    obtain ⟨k0, l0⟩ := p
    by_cases h0 : k0 = d.metadata.source
    · have hpp : pushBySource ((k0, l0) :: rest) d =
          (d.metadata.source, l0 ++ [d]) :: rest := by
        unfold pushBySource aset
        simp [alookup, h0]
      rw [hpp]
      simp only [flatDocs, List.map_cons, List.flatten_cons]
      rw [List.append_assoc, List.append_assoc]
      exact List.Perm.append_left l0 List.perm_append_comm
    · have hlk : alookup d.metadata.source ((k0, l0) :: rest) =
          alookup d.metadata.source rest := by
        rw [alookup_cons, if_neg h0]
      have hpp : pushBySource ((k0, l0) :: rest) d =
          (k0, l0) :: pushBySource rest d := by
        unfold pushBySource
        rw [hlk]
        simp only [aset, if_neg h0]
      rw [hpp]
      simp only [flatDocs, List.map_cons, List.flatten_cons] at ih ⊢
      rw [List.append_assoc]
      exact List.Perm.append_left l0 ih

theorem flatDocs_foldl_push_perm (docs : List Doc) :
    ∀ m, List.Perm (flatDocs (docs.foldl pushBySource m)) (flatDocs m ++ docs) := by
  induction docs with
  | nil => intro m; simp
  | cons d rest ih =>
    intro m
    rw [List.foldl_cons]
    refine (ih (pushBySource m d)).trans ?_
    refine (List.Perm.append_right rest (flatDocs_push_perm d m)).trans ?_
    rw [List.append_assoc]
    exact List.Perm.refl _

theorem flatDocs_adel_perm (m : List (String × List Doc)) (s : String) (l : List Doc) :
    keysNodup m = true → alookup s m = some l →
    List.Perm (flatDocs m) (l ++ flatDocs (adel m s)) := by
  induction m with
  | nil => intro _ hl; exact Option.noConfusion hl
  | cons p rest ih =>
    intro hnd hl
    obtain ⟨k0, l0⟩ := p
    simp only [keysNodup, Bool.and_eq_true] at hnd
    obtain ⟨h1, h2⟩ := hnd
    by_cases h0 : k0 = s
    · subst h0
      unfold alookup at hl
      rw [if_pos rfl] at hl
      injection hl with hl'
      subst hl'
      have had : adel ((k0, l0) :: rest) k0 = rest := by
        have hdrop : adel ((k0, l0) :: rest) k0 = adel rest k0 := by
          simp [adel, List.filter_cons]
        rw [hdrop]
        exact adel_eq_self rest k0 (Option.isNone_iff_eq_none.mp h1)
      rw [had]
      simp [flatDocs]
    · unfold alookup at hl
      rw [if_neg h0] at hl
      have had : adel ((k0, l0) :: rest) s = (k0, l0) :: adel rest s := by
        simp [adel, List.filter_cons, h0]
      rw [had]
      simp only [flatDocs, List.map_cons, List.flatten_cons]
      refine (List.Perm.append_left l0 (ih h2 hl)).trans ?_
      rw [← List.append_assoc, ← List.append_assoc]
      exact List.Perm.append_right _ List.perm_append_comm

theorem countType_perm (τ : String) (l1 l2 : List Doc) (h : List.Perm l1 l2) :
    countType τ l1 = countType τ l2 :=
  List.Perm.length_eq (List.Perm.filter _ h)

theorem countType_append (τ : String) (l1 l2 : List Doc) :
    countType τ (l1 ++ l2) = countType τ l1 + countType τ l2 := by
  unfold countType
  rw [List.filter_append, List.length_append]

theorem countType_cons (τ : String) (d : Doc) (l : List Doc) :
    countType τ (d :: l) =
      (if d.metadata.fileType = τ then 1 else 0) + countType τ l := by
  unfold countType
  by_cases h : d.metadata.fileType = τ
  · rw [List.filter_cons_of_pos (by simp [h]), if_pos h, List.length_cons]
    omega
  · rw [List.filter_cons_of_neg (by simp [h]), if_neg h]
    omega

theorem countType_of_const (τ0 τ : String) (l : List Doc)
    (h : ∀ d ∈ l, d.metadata.fileType = τ0) :
    countType τ l = if τ0 = τ then l.length else 0 := by
  induction l with
  | nil => cases hc : decide (τ0 = τ) <;> simp [countType]
  | cons d rest ih =>
    rw [countType_cons, ih (fun d' hd' => h d' (List.mem_cons_of_mem d hd')),
      h d (List.mem_cons_self d rest)]
    by_cases hc : τ0 = τ <;> simp [hc, Nat.add_comm]

theorem groupHomog_const (l : List Doc) (h : groupHomog l = true) :
    ∃ d0 ds, l = d0 :: ds ∧ ∀ d ∈ l, d.metadata.fileType = d0.metadata.fileType := by
  cases l with
  | nil => exact Bool.noConfusion h
  | cons d0 ds =>
    refine ⟨d0, ds, rfl, ?_⟩
    intro d hd
    rcases List.mem_cons.mp hd with he | hm
    · rw [he]
    · have hall := List.all_eq_true.mp h d hm
      simpa using hall

theorem alookup_foldl_bump (docs : List Doc) :
    ∀ (r : List (String × Int)) (τ : String),
    alookup τ (docs.foldl
      (fun r doc => aset r doc.metadata.fileType
        (((alookup doc.metadata.fileType r).getD 0) + 1)) r) =
      (if countType τ docs = 0 then alookup τ r
       else some ((alookup τ r).getD 0 + (countType τ docs : Int))) := by
  induction docs with
  | nil => intro r τ; simp [countType]
  | cons d rest ih =>
    intro r τ
    rw [List.foldl_cons, ih, countType_cons]
    by_cases hdτ : d.metadata.fileType = τ
    · have hset : alookup τ (aset r d.metadata.fileType
          (((alookup d.metadata.fileType r).getD 0) + 1)) =
          some (((alookup τ r).getD 0) + 1) := by
        rw [hdτ]
        exact alookup_aset_self r τ _
      rw [if_pos hdτ]
      by_cases hcr : countType τ rest = 0
      · rw [if_pos hcr, if_neg (by omega), hset, hcr]
        simp
      · rw [if_neg hcr, if_neg (by omega), hset]
        simp only [Option.getD_some]
        congr 1
        push_cast
        ring
    · have hset : alookup τ (aset r d.metadata.fileType
          (((alookup d.metadata.fileType r).getD 0) + 1)) = alookup τ r := by
        exact alookup_aset_other r _ τ _ (fun he => hdτ he.symm)
      rw [if_neg hdτ, hset]
      simp

theorem statsWF_statsMatch (st : VectorStore) (h : statsWF st = true) :
    statsMatch st := by
  unfold statsWF at h
  rw [Bool.and_eq_true, Bool.and_eq_true] at h
  obtain ⟨⟨h1, h2⟩, h3⟩ := h
  constructor
  · exact beq_iff_eq.mp h1
  · intro τ
    cases he : alookup τ st.stats.documentsByType with
    | some c =>
      have hmem := alookup_mem _ _ _ he
      have hent := List.all_eq_true.mp h2 _ hmem
      rw [Bool.and_eq_true] at hent
      obtain ⟨he1, he2⟩ := hent
      have hc : c = ((countType τ (flatDocs st.documentsBySource) : Nat) : Int) := by
        simpa using he1
      have hc0 : ¬ c = 0 := by simpa using he2
      have hcnt : ¬ countType τ (flatDocs st.documentsBySource) = 0 := by
        intro hz
        rw [hz] at hc
        exact hc0 (by simpa using hc)
      rw [if_neg hcnt, hc]
    | none =>
      have hcnt : countType τ (flatDocs st.documentsBySource) = 0 := by
        by_contra hnz
        unfold countType at hnz
        have hnil : (flatDocs st.documentsBySource).filter
            (fun d => d.metadata.fileType = τ) ≠ [] := by
          intro hn
          rw [hn] at hnz
          exact hnz rfl
        obtain ⟨d, hd⟩ := List.exists_mem_of_ne_nil _ hnil
        have hdf := List.mem_filter.mp hd
        have hτ : d.metadata.fileType = τ := by simpa using hdf.2
        have hs := List.all_eq_true.mp h3 _ hdf.1
        simp only [hτ, he] at hs
        exact Bool.noConfusion hs
      rw [if_pos hcnt]

theorem addDocuments_statsMatch (st : VectorStore) (docs : List Doc)
    (hm : statsMatch st) : statsMatch (addDocuments st docs).1 := by
  obtain ⟨hm1, hm2⟩ := hm
  have hperm := flatDocs_foldl_push_perm docs st.documentsBySource
  have hmap : (addDocuments st docs).1.documentsBySource
      = docs.foldl pushBySource st.documentsBySource := rfl
  have htot : (addDocuments st docs).1.stats.totalDocuments
      = st.stats.totalDocuments + (docs.length : Int) := rfl
  have hbt : (addDocuments st docs).1.stats.documentsByType
      = docs.foldl (fun r doc => aset r doc.metadata.fileType
          (((alookup doc.metadata.fileType r).getD 0) + 1)) st.stats.documentsByType := rfl
  constructor
  · rw [htot, hmap]
    have hlen := List.Perm.length_eq hperm
    rw [List.length_append] at hlen
    rw [hlen]
    push_cast
    omega
  · intro τ
    rw [hbt, hmap, alookup_foldl_bump]
    have hcnt : countType τ (flatDocs (docs.foldl pushBySource st.documentsBySource))
        = countType τ (flatDocs st.documentsBySource) + countType τ docs := by
      rw [countType_perm τ _ _ hperm, countType_append]
    rw [hcnt, hm2 τ]
    by_cases hd : countType τ docs = 0
    · rw [if_pos hd, hd, Nat.add_zero]
    · rw [if_neg hd, if_neg (by omega :
        ¬ countType τ (flatDocs st.documentsBySource) + countType τ docs = 0)]
      by_cases hf : countType τ (flatDocs st.documentsBySource) = 0
      · rw [if_pos hf, hf]
        simp
      · rw [if_neg hf]
        simp only [Option.getD_some]
        congr 1

theorem removeDocumentsBySource_statsMatch (st : VectorStore) (source : String)
    (r : VectorStore × Bool)
    (hnd : keysNodup st.documentsBySource = true)
    (hhg : ∀ l, alookup source st.documentsBySource = some l → groupHomog l = true)
    (hm : statsMatch st)
    (hr : removeDocumentsBySource st source = some r) :
    statsMatch r.1 ∧ keysNodup r.1.documentsBySource = true ∧
      (r.1.documentsBySource = st.documentsBySource ∨
       r.1.documentsBySource = adel st.documentsBySource source) := by
  unfold removeDocumentsBySource at hr
  cases hl : alookup source st.documentsBySource with
  | none =>
    rw [hl] at hr
    have hr2 : some (st, false) = some r := hr
    injection hr2 with hr3
    rw [← hr3]
    exact ⟨hm, hnd, Or.inl rfl⟩
  | some l =>
    cases hs : st.store with
    | none =>
      rw [hl, hs] at hr
      have hr2 : some (st, false) = some r := hr
      injection hr2 with hr3
      rw [← hr3]
      exact ⟨hm, hnd, Or.inl rfl⟩
    | some bs =>
      obtain ⟨d0, ds, hlds, hconst⟩ := groupHomog_const l (hhg l hl)
      subst hlds
      rw [hl, hs] at hr
      have hr2 : some (_, true) = some r := hr
      injection hr2 with hr3
      rw [← hr3]
      obtain ⟨hm1, hm2⟩ := hm
      have hperm := flatDocs_adel_perm st.documentsBySource source (d0 :: ds) hnd hl
      -- counts of the remaining documents
      have hsplit : ∀ τ, countType τ (flatDocs st.documentsBySource) =
          countType τ (d0 :: ds) + countType τ (flatDocs (adel st.documentsBySource source)) := by
        intro τ
        rw [countType_perm τ _ _ hperm, countType_append]
      have hgc : ∀ τ, countType τ (d0 :: ds) =
          if d0.metadata.fileType = τ then (d0 :: ds).length else 0 :=
        fun τ => countType_of_const d0.metadata.fileType τ (d0 :: ds) hconst
      -- the looked-up count of the group's type is defined and large enough
      have hτn : countType d0.metadata.fileType (flatDocs st.documentsBySource)
          = (d0 :: ds).length +
            countType d0.metadata.fileType (flatDocs (adel st.documentsBySource source)) := by
        rw [hsplit d0.metadata.fileType, hgc d0.metadata.fileType, if_pos rfl]
      have hlk : alookup d0.metadata.fileType st.stats.documentsByType =
          some ((countType d0.metadata.fileType (flatDocs st.documentsBySource) : Int)) := by
        rw [hm2 d0.metadata.fileType, if_neg (by rw [hτn]; simp)]
      -- the computed replacement count
      have hnewc : max 0 (((alookup d0.metadata.fileType st.stats.documentsByType).getD 0)
          - ((d0 :: ds).length : Int)) =
          ((countType d0.metadata.fileType (flatDocs (adel st.documentsBySource source)) : Nat) : Int) := by
        rw [hlk]
        simp only [Option.getD_some]
        rw [hτn]
        push_cast
        omega
      refine ⟨⟨?_, ?_⟩, keysNodup_adel _ _ hnd, Or.inr rfl⟩
      · show st.stats.totalDocuments - ((d0 :: ds).length : Int) = _
        have hlen := List.Perm.length_eq hperm
        rw [List.length_append] at hlen
        rw [hlen] at hm1
        rw [hm1]
        push_cast
        ring
      · intro τ
        show alookup τ
            (if max 0 (((alookup d0.metadata.fileType st.stats.documentsByType).getD 0)
                - ((d0 :: ds).length : Int)) = 0
             then adel st.stats.documentsByType d0.metadata.fileType
             else aset st.stats.documentsByType d0.metadata.fileType
               (max 0 (((alookup d0.metadata.fileType st.stats.documentsByType).getD 0)
                 - ((d0 :: ds).length : Int)))) = _
        rw [hnewc]
        by_cases hz : countType d0.metadata.fileType
            (flatDocs (adel st.documentsBySource source)) = 0
        · rw [if_pos (by rw [hz]; rfl)]
          by_cases hττ : d0.metadata.fileType = τ
          · rw [← hττ, alookup_adel_self, if_pos hz]
          · rw [alookup_adel_other _ _ _ (fun he => hττ he.symm), hm2 τ,
              hsplit τ, hgc τ, if_neg hττ, Nat.zero_add]
        · rw [if_neg (by
            intro hc
            apply hz
            have : ((countType d0.metadata.fileType
                (flatDocs (adel st.documentsBySource source)) : Nat) : Int) = 0 := hc
            exact_mod_cast this)]
          by_cases hττ : d0.metadata.fileType = τ
          · rw [← hττ, alookup_aset_self, if_neg hz]
          · rw [alookup_aset_other _ _ _ _ (fun he => hττ he.symm), hm2 τ,
              hsplit τ, hgc τ, if_neg hττ, Nat.zero_add]

theorem addDocuments_store_isSome (st : VectorStore) (docs : List Doc) :
    (addDocuments st docs).1.store.isSome = true := by
  unfold addDocuments
  cases st.store <;> simp

theorem remove_total (st : VectorStore) (s : String)
    (hlne : ∀ l, alookup s st.documentsBySource = some l → l ≠ []) :
    ∃ rr, removeDocumentsBySource st s = some rr := by
  unfold removeDocumentsBySource
  cases hl : alookup s st.documentsBySource with
  | none => exact ⟨_, rfl⟩
  | some l =>
    cases hs : st.store with
    | none => exact ⟨_, rfl⟩
    | some bs =>
      cases l with
      | nil => exact absurd rfl (hlne [] hl)
      | cons d0 ds => exact ⟨_, rfl⟩

theorem remove_map_shape (st : VectorStore) (source : String) (rr : VectorStore × Bool)
    (hr : removeDocumentsBySource st source = some rr) :
    rr.1.documentsBySource = st.documentsBySource ∨
    rr.1.documentsBySource = adel st.documentsBySource source := by
  unfold removeDocumentsBySource at hr
  cases hl : alookup source st.documentsBySource with
  | none =>
    rw [hl] at hr
    have hr2 : some (st, false) = some rr := hr
    injection hr2 with hr3
    rw [← hr3]
    exact Or.inl rfl
  | some l =>
    cases hs : st.store with
    | none =>
      rw [hl, hs] at hr
      have hr2 : some (st, false) = some rr := hr
      injection hr2 with hr3
      rw [← hr3]
      exact Or.inl rfl
    | some bs =>
      cases l with
      | nil => rw [hl, hs] at hr; exact Option.noConfusion hr
      | cons d0 ds =>
        rw [hl, hs] at hr
        have hr2 : some (_, true) = some rr := hr
        injection hr2 with hr3
        rw [← hr3]
        exact Or.inr rfl

theorem remove_own_lookup (st : VectorStore) (source : String) (rr : VectorStore × Bool)
    (hstore : st.store.isSome = true ∨ st.documentsBySource = [])
    (hr : removeDocumentsBySource st source = some rr) :
    alookup source rr.1.documentsBySource = none := by
  unfold removeDocumentsBySource at hr
  cases hl : alookup source st.documentsBySource with
  | none =>
    rw [hl] at hr
    have hr2 : some (st, false) = some rr := hr
    injection hr2 with hr3
    rw [← hr3]
    exact hl
  | some l =>
    cases hs : st.store with
    | none =>
      rcases hstore with hst | hmap
      · rw [hs] at hst; exact Bool.noConfusion hst
      · rw [hmap] at hl; exact Option.noConfusion hl
    | some bs =>
      cases l with
      | nil => rw [hl, hs] at hr; exact Option.noConfusion hr
      | cons d0 ds =>
        rw [hl, hs] at hr
        have hr2 : some (_, true) = some rr := hr
        injection hr2 with hr3
        rw [← hr3]
        exact alookup_adel_self st.documentsBySource source

theorem addDocuments_lookup (st : VectorStore) (docs : List Doc) (s : String) :
    alookup s (addDocuments st docs).1.documentsBySource =
      combineGroup (alookup s st.documentsBySource)
        (docs.filter (fun d => d.metadata.source = s)) := by
  show alookup s (docs.foldl pushBySource st.documentsBySource) = _
  exact alookup_foldl_push docs st.documentsBySource s

theorem upStep_some (st : VectorStore) (g : String × List Doc) (rr : VectorStore × Bool)
    (hrr : removeDocumentsBySource st g.1 = some rr) :
    upStep st g = some (addDocuments rr.1 g.2).1 := by
  unfold upStep
  rw [hrr]
  rfl

theorem upStep_other_lookup (st mid : VectorStore) (g : String × List Doc) (s' : String)
    (hs' : s' ≠ g.1)
    (hsrc : ∀ d ∈ g.2, d.metadata.source = g.1)
    (hu : upStep st g = some mid) :
    alookup s' mid.documentsBySource = alookup s' st.documentsBySource := by
  unfold upStep at hu
  cases hrem : removeDocumentsBySource st g.1 with
  | none => rw [hrem] at hu; exact Option.noConfusion hu
  | some rr =>
    rw [hrem] at hu
    have hmid : some (addDocuments rr.1 g.2).1 = some mid := hu
    injection hmid with hmid'
    rw [← hmid']
    rw [addDocuments_lookup]
    have hfil : g.2.filter (fun d => d.metadata.source = s') = [] := by
      rw [List.filter_eq_nil_iff]
      intro d hd
      simp only [decide_eq_true_eq]
      rw [hsrc d hd]
      exact fun he => hs' he.symm
    rw [hfil, combineGroup_nil]
    rcases remove_map_shape st g.1 rr hrem with hsh | hsh
    · rw [hsh]
    · rw [hsh]
      exact alookup_adel_other st.documentsBySource g.1 s' hs'

theorem upStep_own_lookup (st mid : VectorStore) (g : String × List Doc)
    (hstore : st.store.isSome = true ∨ st.documentsBySource = [])
    (hsrc : ∀ d ∈ g.2, d.metadata.source = g.1) (hne : g.2 ≠ [])
    (hu : upStep st g = some mid) :
    alookup g.1 mid.documentsBySource = some g.2 := by
  unfold upStep at hu
  cases hrem : removeDocumentsBySource st g.1 with
  | none => rw [hrem] at hu; exact Option.noConfusion hu
  | some rr =>
    rw [hrem] at hu
    have hmid : some (addDocuments rr.1 g.2).1 = some mid := hu
    injection hmid with hmid'
    rw [← hmid']
    rw [addDocuments_lookup]
    have hfil : g.2.filter (fun d => d.metadata.source = g.1) = g.2 := by
      rw [List.filter_eq_self]
      intro d hd
      simp only [decide_eq_true_eq]
      exact hsrc d hd
    rw [remove_own_lookup st g.1 rr hstore hrem, hfil]
    unfold combineGroup
    rw [if_neg (by
      intro he
      exact hne (List.isEmpty_iff.mp he))]

theorem foldGroups_lookup (gs : List (String × List Doc)) :
    ∀ st : VectorStore,
    keysNodup gs = true →
    (∀ g ∈ gs, ∀ d ∈ g.2, d.metadata.source = g.1) →
    (∀ g ∈ gs, g.2 ≠ []) →
    (st.store.isSome = true ∨ st.documentsBySource = []) →
    (∀ g ∈ gs, ∀ l, alookup g.1 st.documentsBySource = some l → l ≠ []) →
    ∃ st', gs.foldlM upStep st = some st' ∧
      (∀ g ∈ gs, alookup g.1 st'.documentsBySource = some g.2) ∧
      (∀ s : String, (∀ g ∈ gs, g.1 ≠ s) →
        alookup s st'.documentsBySource = alookup s st.documentsBySource) := by
  induction gs with
  | nil =>
    intro st _ _ _ _ _
    exact ⟨st, rfl, by simp, fun s _ => rfl⟩
  | cons g rest ih =>
    intro st hgnd hsrc hne hstore hlne
    obtain ⟨s0, l0⟩ := g
    simp only [keysNodup, Bool.and_eq_true] at hgnd
    obtain ⟨hg1, hg2⟩ := hgnd
    have hkeys : ∀ g' ∈ rest, g'.1 ≠ s0 :=
      alookup_none_keys rest s0 (Option.isNone_iff_eq_none.mp hg1)
    have hheadmem : (s0, l0) ∈ (s0, l0) :: rest := List.mem_cons_self _ _
    obtain ⟨rr, hrr⟩ := remove_total st s0
      (fun l hl => hlne (s0, l0) hheadmem l hl)
    have hu := upStep_some st (s0, l0) rr hrr
    set mid := (addDocuments rr.1 (s0, l0).2).1 with hmiddef
    have hown : alookup s0 mid.documentsBySource = some l0 :=
      upStep_own_lookup st mid (s0, l0) hstore
        (hsrc (s0, l0) hheadmem) (hne (s0, l0) hheadmem) hu
    have hother : ∀ s', s' ≠ s0 →
        alookup s' mid.documentsBySource = alookup s' st.documentsBySource :=
      fun s' hs' => upStep_other_lookup st mid (s0, l0) s' hs'
        (hsrc (s0, l0) hheadmem) hu
    have hstoremid : mid.store.isSome = true ∨ mid.documentsBySource = [] :=
      Or.inl (addDocuments_store_isSome rr.1 (s0, l0).2)
    have hlnemid : ∀ g' ∈ rest, ∀ l,
        alookup g'.1 mid.documentsBySource = some l → l ≠ [] := by
      intro g' hg' l hl
      rw [hother g'.1 (hkeys g' hg')] at hl
      exact hlne g' (List.mem_cons_of_mem _ hg') l hl
    obtain ⟨st', hf, hb, hc⟩ := ih mid hg2
      (fun g' hg' => hsrc g' (List.mem_cons_of_mem _ hg'))
      (fun g' hg' => hne g' (List.mem_cons_of_mem _ hg'))
      hstoremid hlnemid
    have hfold : ((s0, l0) :: rest).foldlM upStep st = some st' := by
      rw [List.foldlM_cons, hu]
      exact hf
    refine ⟨st', hfold, ?_, ?_⟩
    · intro g' hg'
      rcases List.mem_cons.mp hg' with he | hm
      · rw [he] at *
        rw [hc s0 (fun g'' hg'' => hkeys g'' hg'')]
        exact hown
      · exact hb g' hm
    · intro s hs
      rw [hc s (fun g'' hg'' => hs g'' (List.mem_cons_of_mem _ hg''))]
      exact hother s (Ne.symm (hs (s0, l0) hheadmem))

theorem foldGroups_stats (gs : List (String × List Doc)) :
    ∀ st : VectorStore,
    keysNodup gs = true →
    (∀ g ∈ gs, ∀ d ∈ g.2, d.metadata.source = g.1) →
    statsMatch st → keysNodup st.documentsBySource = true →
    (∀ g ∈ gs, ∀ l, alookup g.1 st.documentsBySource = some l → groupHomog l = true) →
    ∃ st', gs.foldlM upStep st = some st' ∧ statsMatch st' ∧
      keysNodup st'.documentsBySource = true := by
  induction gs with
  | nil =>
    intro st _ _ hm hnd _
    exact ⟨st, rfl, hm, hnd⟩
  | cons g rest ih =>
    intro st hgnd hsrc hm hnd hhg
    obtain ⟨s0, l0⟩ := g
    simp only [keysNodup, Bool.and_eq_true] at hgnd
    obtain ⟨hg1, hg2⟩ := hgnd
    have hkeys : ∀ g' ∈ rest, g'.1 ≠ s0 :=
      alookup_none_keys rest s0 (Option.isNone_iff_eq_none.mp hg1)
    have hheadmem : (s0, l0) ∈ (s0, l0) :: rest := List.mem_cons_self _ _
    obtain ⟨rr, hrr⟩ := remove_total st s0 (by
      intro l hl
      have hh := hhg (s0, l0) hheadmem l hl
      cases l with
      | nil => exact Bool.noConfusion hh
      | cons d0 ds => exact List.cons_ne_nil d0 ds)
    have hu := upStep_some st (s0, l0) rr hrr
    set mid := (addDocuments rr.1 (s0, l0).2).1 with hmiddef
    obtain ⟨hmrr, hndrr, hshape⟩ := removeDocumentsBySource_statsMatch st s0 rr hnd
      (fun l hl => hhg (s0, l0) hheadmem l hl) hm hrr
    have hmmid : statsMatch mid := addDocuments_statsMatch rr.1 (s0, l0).2 hmrr
    have hndmid : keysNodup mid.documentsBySource = true := by
      show keysNodup ((s0, l0).2.foldl pushBySource rr.1.documentsBySource) = true
      exact keysNodup_foldl_push _ _ hndrr
    have hother : ∀ s', s' ≠ s0 →
        alookup s' mid.documentsBySource = alookup s' st.documentsBySource :=
      fun s' hs' => upStep_other_lookup st mid (s0, l0) s' hs'
        (hsrc (s0, l0) hheadmem) hu
    have hhgmid : ∀ g' ∈ rest, ∀ l,
        alookup g'.1 mid.documentsBySource = some l → groupHomog l = true := by
      intro g' hg' l hl
      rw [hother g'.1 (hkeys g' hg')] at hl
      exact hhg g' (List.mem_cons_of_mem _ hg') l hl
    obtain ⟨st', hf, hm', hnd'⟩ := ih mid hg2
      (fun g' hg' => hsrc g' (List.mem_cons_of_mem _ hg'))
      hmmid hndmid hhgmid
    have hfold : ((s0, l0) :: rest).foldlM upStep st = some st' := by
      rw [List.foldlM_cons, hu]
      exact hf
    exact ⟨st', hfold, hm', hnd'⟩

theorem bumpFold_const (τ : String) : ∀ (docs : List Doc) (R : List (String × Int)),
    (∀ d ∈ docs, d.metadata.fileType = τ) → docs ≠ [] →
    docs.foldl (fun r doc => aset r doc.metadata.fileType
      (((alookup doc.metadata.fileType r).getD 0) + 1)) R
      = aset R τ ((alookup τ R).getD 0 + (docs.length : Int)) := by
  intro docs
  induction docs with
  | nil => intro R _ hne; exact absurd rfl hne
  | cons d rest ih =>
    intro R hτ _
    rw [List.foldl_cons]
    have hd : d.metadata.fileType = τ := hτ d (List.mem_cons_self d rest)
    cases rest with
    | nil =>
      simp only [List.foldl_nil]
      rw [hd]
      simp
    | cons d2 rest2 =>
      rw [hd,
        ih _ (fun d' hd' => hτ d' (List.mem_cons_of_mem d hd')) (List.cons_ne_nil d2 rest2),
        alookup_aset_self]
      simp only [Option.getD_some]
      rw [aset_aset]
      congr 1
      simp only [List.length_cons]
      push_cast
      ring

theorem remove_stats_formula (st : VectorStore) (source : String) (r : VectorStore × Bool)
    (d0 : Doc) (ds : List Doc)
    (hl : alookup source st.documentsBySource = some (d0 :: ds))
    (bs : List Doc) (hss : st.store = some bs)
    (hr : removeDocumentsBySource st source = some r) :
    r.1.stats.totalDocuments = st.stats.totalDocuments - ((d0 :: ds).length : Int) ∧
    r.1.stats.documentsByType =
      (if max 0 (((alookup d0.metadata.fileType st.stats.documentsByType).getD 0)
          - ((d0 :: ds).length : Int)) = 0
       then adel st.stats.documentsByType d0.metadata.fileType
       else aset st.stats.documentsByType d0.metadata.fileType
         (max 0 (((alookup d0.metadata.fileType st.stats.documentsByType).getD 0)
            - ((d0 :: ds).length : Int)))) := by
  unfold removeDocumentsBySource at hr
  rw [hl, hss] at hr
  have hr2 : some (_, true) = some r := hr
  injection hr2 with hr3
  rw [← hr3]
  exact ⟨rfl, rfl⟩

/-- A concrete chunk used by witnesses. -/
def wDoc : Doc :=
  { pageContent := "a", metadata := { source := "/x", fileType := "txt", lastModified := 0 } }

/-- Claim C3: `updateDocuments` groups its input chunks by source and,
for each distinct source, performs `removeDocumentsBySource` followed by
`addDocuments` with that source's new chunks; afterwards, for every
source appearing in the input (in particular an already-indexed one),
exactly the new chunks are indexed for that source — all old chunks of
that source are gone — while the chunks of every other source are
untouched, and an empty input is a no-op.  The hypotheses state that
the backing index exists whenever the per-source map is nonempty and
that no tracked group is empty, which holds in every reachable state. -/
theorem updateDocuments_replace_spec (st : VectorStore) (docs : List Doc)
    (hstore : (st.store.isSome || st.documentsBySource.isEmpty) = true)
    (hgroups : st.documentsBySource.all (fun g => !g.2.isEmpty) = true) :
    ∃ r, updateDocuments st docs = some r ∧
      (docs.isEmpty = true → r = (st, false)) ∧
      (∀ s : String, docs.any (fun d => d.metadata.source = s) = true →
        alookup s r.1.documentsBySource =
          some (docs.filter (fun d => d.metadata.source = s))) ∧
      (∀ s : String, docs.any (fun d => d.metadata.source = s) = false →
        alookup s r.1.documentsBySource = alookup s st.documentsBySource) := by
  by_cases hd : docs.isEmpty = true
  · have hdocs : docs = [] := List.isEmpty_iff.mp hd
    subst hdocs
    refine ⟨(st, false), rfl, fun _ => rfl, ?_, fun s _ => rfl⟩
    intro s hs
    exact absurd hs (by simp)
  · have hstore' : st.store.isSome = true ∨ st.documentsBySource = [] := by
      cases hso : st.store.isSome with
      | true => exact Or.inl rfl
      | false =>
        rw [hso, Bool.false_or] at hstore
        exact Or.inr (List.isEmpty_iff.mp hstore)
    have hlne : ∀ g ∈ groupBySource docs, ∀ l,
        alookup g.1 st.documentsBySource = some l → l ≠ [] := by
      intro g _ l hl hnil
      subst hnil
      have hmem := alookup_mem _ _ _ hl
      have hz := List.all_eq_true.mp hgroups _ hmem
      simp at hz
    obtain ⟨st', hf, hb, hc⟩ := foldGroups_lookup (groupBySource docs) st
      (groupBySource_keysNodup docs)
      (fun g hg => (groupBySource_sources docs g hg).2.2)
      (fun g hg => (groupBySource_sources docs g hg).2.1)
      hstore' hlne
    have hupd : updateDocuments st docs = some (st', true) := by
      unfold updateDocuments
      rw [if_neg (by simp [hd]), hf]
      rfl
    refine ⟨(st', true), hupd, fun he => absurd he hd, ?_, ?_⟩
    · intro s hs
      have hfil : docs.filter (fun d => d.metadata.source = s) ≠ [] := by
        obtain ⟨d, hdm, hds⟩ := List.any_eq_true.mp hs
        intro hnil
        have hdin : d ∈ docs.filter (fun d => d.metadata.source = s) :=
          List.mem_filter.mpr ⟨hdm, hds⟩
        rw [hnil] at hdin
        exact absurd hdin (List.not_mem_nil d)
      have hlkgs : alookup s (groupBySource docs) =
          some (docs.filter (fun d => d.metadata.source = s)) := by
        rw [alookup_groupBySource,
          if_neg (fun he => hfil (List.isEmpty_iff.mp he))]
      exact hb (s, docs.filter (fun d => d.metadata.source = s))
        (alookup_mem _ _ _ hlkgs)
    · intro s hs
      apply hc
      intro g hg he
      obtain ⟨hfil, hne2, hsrc2⟩ := groupBySource_sources docs g hg
      obtain ⟨d, hd2⟩ := List.exists_mem_of_ne_nil _ hne2
      have hdin : d ∈ docs := by
        rw [hfil] at hd2
        exact (List.mem_filter.mp hd2).1
      have hany : docs.any (fun d => d.metadata.source = s) = true :=
        List.any_eq_true.mpr ⟨d, hdin, by simp [hsrc2 d hd2, he]⟩
      rw [hs] at hany
      exact Bool.noConfusion hany

theorem updateDocuments_replace_spec_witness :
    ((VectorStore.init.store.isSome || VectorStore.init.documentsBySource.isEmpty) = true) ∧
    (VectorStore.init.documentsBySource.all (fun g => !g.2.isEmpty) = true) ∧
    (∃ r, updateDocuments VectorStore.init [wDoc] = some r ∧
      (([wDoc] : List Doc).isEmpty = true → r = (VectorStore.init, false)) ∧
      (∀ s : String, ([wDoc] : List Doc).any (fun d => d.metadata.source = s) = true →
        alookup s r.1.documentsBySource =
          some (([wDoc] : List Doc).filter (fun d => d.metadata.source = s))) ∧
      (∀ s : String, ([wDoc] : List Doc).any (fun d => d.metadata.source = s) = false →
        alookup s r.1.documentsBySource = alookup s VectorStore.init.documentsBySource)) :=
  ⟨by decide, by decide,
   updateDocuments_replace_spec VectorStore.init [wDoc] (by decide) (by decide)⟩

/-- The store after a successful `load` of previously persisted state:
the stats file said five documents, but `load` does not restore the
per-source map, which stays empty. -/
def loadedStore : VectorStore :=
  loadStore VectorStore.init []
    { totalDocuments := 5, documentsByType := [("txt", 5)],
      watchedDirectories := [], filesBeingProcessed := 0 }

/-- Claim C4 counterexample: after `load`, the stats are not consistent
with the per-source map — `load` restores the backing index and the
stats but leaves `documentsBySource` empty, so `totalDocuments` (5)
differs from the number of chunks across all source groups (0). -/
theorem stats_load_counterexample :
    loadedStore.stats.totalDocuments = 5 ∧
    flatDocs loadedStore.documentsBySource = [] ∧
    ¬ statsMatch loadedStore := by
  refine ⟨rfl, rfl, ?_⟩
  intro hm
  have h1 := hm.1
  simp [loadedStore, loadStore, VectorStore.init, flatDocs] at h1

/-- Claim C4 (amended): after each of `addDocuments`,
`removeDocumentsBySource` and `updateDocuments` applied to a
well-formed store (unique sources, nonempty fileType-homogeneous
groups, stats consistent with the map), the stats are again consistent
with the per-source map: `totalDocuments` equals the number of chunks
across all source groups and, for every fileType, `documentsByType`
holds exactly the number of indexed chunks of that type, with no key
for a type of count zero.  After `load` the property can fail, because
`load` does not restore the per-source map (see the counterexample). -/
theorem stats_consistency_spec (st : VectorStore) (h : wellFormed st = true) :
    (∀ docs, statsMatch (addDocuments st docs).1) ∧
    (∀ source, ∃ r, removeDocumentsBySource st source = some r ∧ statsMatch r.1) ∧
    (∀ docs, ∃ r, updateDocuments st docs = some r ∧ statsMatch r.1) := by
  unfold wellFormed at h
  rw [Bool.and_eq_true, Bool.and_eq_true] at h
  obtain ⟨⟨hnd, hgr⟩, hsw⟩ := h
  have hm := statsWF_statsMatch st hsw
  have hhg : ∀ (source : String) (l : List Doc),
      alookup source st.documentsBySource = some l → groupHomog l = true := by
    intro source l hl
    exact List.all_eq_true.mp hgr _ (alookup_mem _ _ _ hl)
  refine ⟨fun docs => addDocuments_statsMatch st docs hm, ?_, ?_⟩
  · intro source
    obtain ⟨rr, hrr⟩ := remove_total st source (by
      intro l hl
      have hh := hhg source l hl
      cases l with
      | nil => exact Bool.noConfusion hh
      | cons d0 ds => exact List.cons_ne_nil d0 ds)
    exact ⟨rr, hrr,
      (removeDocumentsBySource_statsMatch st source rr hnd (hhg source) hm hrr).1⟩
  · intro docs
    by_cases hd : docs.isEmpty = true
    · have hdocs : docs = [] := List.isEmpty_iff.mp hd
      subst hdocs
      exact ⟨(st, false), rfl, hm⟩
    · obtain ⟨st', hf, hm', _⟩ := foldGroups_stats (groupBySource docs) st
        (groupBySource_keysNodup docs)
        (fun g hg => (groupBySource_sources docs g hg).2.2)
        hm hnd
        (fun g _ l hl => hhg g.1 l hl)
      refine ⟨(st', true), ?_, hm'⟩
      unfold updateDocuments
      rw [if_neg (by simp [hd]), hf]
      rfl

theorem stats_consistency_spec_witness :
    wellFormed VectorStore.init = true ∧
    ((∀ docs, statsMatch (addDocuments VectorStore.init docs).1) ∧
     (∀ source, ∃ r, removeDocumentsBySource VectorStore.init source = some r ∧
       statsMatch r.1) ∧
     (∀ docs, ∃ r, updateDocuments VectorStore.init docs = some r ∧ statsMatch r.1)) :=
  ⟨by decide, stats_consistency_spec VectorStore.init (by decide)⟩

/-- Two chunks for the same source, used to refute claim C5 on a store
that already tracks that source. -/
def preDoc : Doc :=
  { pageContent := "old", metadata := { source := "/x", fileType := "txt", lastModified := 0 } }

/-- A second chunk for the already-tracked source. -/
def newDoc : Doc :=
  { pageContent := "new", metadata := { source := "/x", fileType := "txt", lastModified := 0 } }

/-- A store already tracking source `/x` with one chunk. -/
def preStore : VectorStore := (addDocuments VectorStore.init [preDoc]).1

/-- Claim C5 counterexample: on a store already tracking source `/x`
(stats `totalDocuments = 1`, `documentsByType = [(txt, 1)]`), adding one
more `/x` chunk and immediately removing the source `/x` yields
`totalDocuments = 0` and an empty `documentsByType`, not the pre-add
values: the removal deletes the whole group, old chunks included. -/
theorem add_remove_restore_counterexample :
    preStore.stats.totalDocuments = 1 ∧
    preStore.stats.documentsByType = [("txt", 1)] ∧
    (removeDocumentsBySource (addDocuments preStore [newDoc]).1 "/x").map
      (fun r => (r.1.stats.totalDocuments, r.1.stats.documentsByType)) =
      some ((0 : Int), ([] : List (String × Int))) := by
  refine ⟨by decide, by decide, by decide⟩

/-- Claim C5 (amended): for every store state whose `documentsByType`
entries are positive and every nonempty list of chunks sharing one
source and one fileType, where that source is not already tracked,
calling `addDocuments` with that list and then immediately
`removeDocumentsBySource` with that source restores `totalDocuments`
and `documentsByType` exactly to their values from before the
`addDocuments` call. -/
theorem add_remove_restore_spec (st : VectorStore) (docs : List Doc) (s τ : String)
    (hne : docs ≠ [])
    (hsrc : ∀ d ∈ docs, d.metadata.source = s)
    (hft : ∀ d ∈ docs, d.metadata.fileType = τ)
    (hfresh : alookup s st.documentsBySource = none)
    (hpos : st.stats.documentsByType.all (fun e => decide (0 < e.2)) = true) :
    ∃ r, removeDocumentsBySource (addDocuments st docs).1 s = some r ∧
      r.1.stats.totalDocuments = st.stats.totalDocuments ∧
      r.1.stats.documentsByType = st.stats.documentsByType := by
  obtain ⟨d0, ds, hdocs⟩ : ∃ d0 ds, docs = d0 :: ds := by
    cases docs with
    | nil => exact absurd rfl hne
    | cons a b => exact ⟨a, b, rfl⟩
  subst hdocs
  set st1 := (addDocuments st (d0 :: ds)).1 with hst1
  have hd0τ : d0.metadata.fileType = τ := hft d0 (List.mem_cons_self d0 ds)
  -- the freshly added group
  have hlk1 : alookup s st1.documentsBySource = some (d0 :: ds) := by
    rw [hst1, addDocuments_lookup, hfresh]
    have hfil : (d0 :: ds).filter (fun d => d.metadata.source = s) = d0 :: ds := by
      rw [List.filter_eq_self]
      intro d hd
      simp only [decide_eq_true_eq]
      exact hsrc d hd
    rw [hfil]
    unfold combineGroup
    rw [if_neg (by simp)]
  obtain ⟨bs, hbs⟩ : ∃ bs, st1.store = some bs := by
    have := addDocuments_store_isSome st (d0 :: ds)
    rw [← hst1] at this
    cases hsb : st1.store with
    | none => rw [hsb] at this; exact Bool.noConfusion this
    | some bs => exact ⟨bs, rfl⟩
  -- the bumped per-type record
  have hbt1 : st1.stats.documentsByType =
      aset st.stats.documentsByType τ
        ((alookup τ st.stats.documentsByType).getD 0 + (((d0 :: ds).length : Nat) : Int)) := by
    rw [hst1]
    show (d0 :: ds).foldl (fun r doc => aset r doc.metadata.fileType
      (((alookup doc.metadata.fileType r).getD 0) + 1)) st.stats.documentsByType = _
    exact bumpFold_const τ (d0 :: ds) st.stats.documentsByType hft hne
  have htot1 : st1.stats.totalDocuments =
      st.stats.totalDocuments + (((d0 :: ds).length : Nat) : Int) := rfl
  obtain ⟨r, hr⟩ := remove_total st1 s (by
    intro l hl
    rw [hlk1] at hl
    injection hl with hl'
    rw [← hl']
    exact List.cons_ne_nil d0 ds)
  obtain ⟨hrtot, hrbt⟩ := remove_stats_formula st1 s r d0 ds hlk1 bs hbs hr
  refine ⟨r, hr, ?_, ?_⟩
  · rw [hrtot, htot1]
    ring
  · rw [hrbt, hbt1, hd0τ, alookup_aset_self]
    simp only [Option.getD_some]
    have harith : max 0 ((alookup τ st.stats.documentsByType).getD 0
        + (((d0 :: ds).length : Nat) : Int) - (((d0 :: ds).length : Nat) : Int)) =
        max 0 ((alookup τ st.stats.documentsByType).getD 0) := by
      congr 1
      ring
    rw [harith]
    cases hA : alookup τ st.stats.documentsByType with
    | none =>
      simp only [Option.getD_none]
      rw [if_pos (show ((0 : Int) ⊔ 0) = 0 by simp)]
      have hset : aset st.stats.documentsByType τ
          ((0 : Int) + (((d0 :: ds).length : Nat) : Int)) =
          st.stats.documentsByType ++ [(τ, (0 : Int) + (((d0 :: ds).length : Nat) : Int))] :=
        aset_append st.stats.documentsByType τ _ hA
      rw [hset]
      have hsplitdel : adel (st.stats.documentsByType ++
          [(τ, (0 : Int) + (((d0 :: ds).length : Nat) : Int))]) τ =
          adel st.stats.documentsByType τ ++
          adel [(τ, (0 : Int) + (((d0 :: ds).length : Nat) : Int))] τ := by
        unfold adel
        rw [List.filter_append]
      rw [hsplitdel, adel_eq_self st.stats.documentsByType τ hA]
      simp [adel]
    | some c =>
      have hcpos : 0 < c := by
        have := List.all_eq_true.mp hpos _ (alookup_mem _ _ _ hA)
        simpa using this
      simp only [Option.getD_some]
      rw [max_eq_right (le_of_lt hcpos), if_neg (by omega)]
      rw [aset_aset]
      exact aset_eq_self st.stats.documentsByType τ c hA

theorem add_remove_restore_spec_witness :
    (([wDoc] : List Doc) ≠ []) ∧
    (∀ d ∈ ([wDoc] : List Doc), d.metadata.source = "/x") ∧
    (∀ d ∈ ([wDoc] : List Doc), d.metadata.fileType = "txt") ∧
    alookup "/x" VectorStore.init.documentsBySource = none ∧
    VectorStore.init.stats.documentsByType.all (fun e => decide (0 < e.2)) = true ∧
    (∃ r, removeDocumentsBySource (addDocuments VectorStore.init [wDoc]).1 "/x" = some r ∧
      r.1.stats.totalDocuments = VectorStore.init.stats.totalDocuments ∧
      r.1.stats.documentsByType = VectorStore.init.stats.documentsByType) :=
  ⟨by decide, by decide, by decide, by decide, by decide,
   add_remove_restore_spec VectorStore.init [wDoc] "/x" "txt"
     (by decide) (by decide) (by decide) (by decide) (by decide)⟩

theorem setDel_append_self (l : List String) (x : String) (h : x ∉ l) :
    setDel (l ++ [x]) x = l := by
  unfold setDel
  induction l with
  | nil => simp
  | cons a as ih =>
    have hax : ¬a = x := fun he => h (by simp [he])
    simp [List.filter_cons, hax, ih (fun hm => h (List.mem_cons_of_mem a hm))]
    intro b hb he
    exact h (List.mem_cons_of_mem a (he ▸ hb))

theorem runBurstCalls_aux (filePath : String) (calls : List (EvKind × CbOutcome)) :
    ∀ (w : WatcherState) (n : Nat), filePath ∈ w.processingQueue →
    calls.foldl
      (fun acc c =>
        let r := handleFileChange acc.1 c.1 filePath c.2
        (r.1, acc.2 + r.2.1))
      (w, n) = (w, n) := by
  induction calls with
  | nil => intro w n _; rfl
  | cons c rest ih =>
    intro w n hin
    have hstep : handleFileChange w c.1 filePath c.2 = (w, 0, false) := by
      unfold handleFileChange enterInFlight
      simp [hin]
    simp only [List.foldl_cons, hstep]
    exact ih w n hin

/-- Claim C1: while a path is in flight, every further
`handleFileChange` call for that path returns without invoking the
on-change callback (so a burst of overlapping duplicate notifications
causes zero further invocations beyond the first), and on every exit of
`handleFileChange` for a non-dropped event — normal return or callback
exception — the path is removed from the in-flight set exactly once,
leaving the in-flight set exactly as before the call. -/
theorem handleFileChange_inflight_spec (w : WatcherState) (filePath : String)
    (h : filePath ∉ w.processingQueue) :
    ∃ w1, enterInFlight w filePath = some w1 ∧
      filePath ∈ w1.processingQueue ∧
      (∀ calls, runBurstCalls w1 filePath calls = (w1, 0)) ∧
      (∀ kind cb,
        (handleFileChange w kind filePath cb).2.1 = 1 ∧
        (handleFileChange w kind filePath cb).1.processingQueue = w.processingQueue ∧
        filePath ∉ (handleFileChange w kind filePath cb).1.processingQueue) := by
  have henter : enterInFlight w filePath =
      some { w with processingQueue := w.processingQueue ++ [filePath] } := by
    unfold enterInFlight setAdd
    simp [h]
  refine ⟨_, henter, ?_, ?_, ?_⟩
  · simp
  · intro calls
    exact runBurstCalls_aux filePath calls _ 0 (by simp)
  · intro kind cb
    have hq : ∀ w2 : WatcherState,
        w2.processingQueue = w.processingQueue ++ [filePath] →
        (finishInFlight w2 kind filePath cb).processingQueue = w.processingQueue := by
      intro w2 hw2
      unfold finishInFlight
      cases cb with
      | cbThrows => simp [hw2, setDel_append_self _ _ h]
      | cbOk => cases kind <;> simp [hw2, setDel_append_self _ _ h]
    have hmain : (handleFileChange w kind filePath cb).1 =
        finishInFlight { w with processingQueue := w.processingQueue ++ [filePath] }
          kind filePath cb ∧
        (handleFileChange w kind filePath cb).2.1 = 1 := by
      unfold handleFileChange
      rw [henter]
      exact ⟨rfl, rfl⟩
    refine ⟨hmain.2, ?_, ?_⟩
    · rw [hmain.1]
      exact hq _ rfl
    · rw [hmain.1, hq _ rfl]
      exact h

/-! ### Debounced persistence (claim C2) -/

/-- Timer firings caused by a sequence of mutation times when every
mutation re-arms the timer for its own time plus the delay. -/
def countFires (f : Int) : List Int → Nat
  | [] => 0
  | t :: rest => (if f ≤ t then 1 else 0) + countFires (t + SAVE_DELAY) rest

theorem aset_ne_nil {α : Type} (m : List (String × α)) (k : String) (v : α) :
    aset m k v ≠ [] := by
  cases m with
  | nil => simp [aset]
  | cons p rest =>
    obtain ⟨k0, v0⟩ := p
    unfold aset
    by_cases h : k0 = k <;> simp [h]

theorem foldl_push_ne_nil (docs : List Doc) :
    ∀ m : List (String × List Doc), m ≠ [] → docs.foldl pushBySource m ≠ [] := by
  induction docs with
  | nil => intro m hm; exact hm
  | cons d rest ih =>
    intro m _
    exact ih (pushBySource m d) (aset_ne_nil _ _ _)

theorem groupBySource_ne_nil (docs : List Doc) (h : docs ≠ []) :
    groupBySource docs ≠ [] := by
  cases docs with
  | nil => exact absurd rfl h
  | cons d rest =>
    unfold groupBySource
    rw [List.foldl_cons]
    exact foldl_push_ne_nil rest _ (aset_ne_nil _ _ _)

theorem upStep_store_isSome (s mid : VectorStore) (g : String × List Doc)
    (h : upStep s g = some mid) : mid.store.isSome = true := by
  unfold upStep at h
  cases hr : removeDocumentsBySource s g.1 with
  | none => rw [hr] at h; exact Option.noConfusion h
  | some r =>
    rw [hr] at h
    have h2 : some (addDocuments r.1 g.2).1 = some mid := h
    injection h2 with h'
    rw [← h']
    exact addDocuments_store_isSome r.1 g.2

theorem foldGroups_store_isSome (gs : List (String × List Doc)) :
    ∀ (st st' : VectorStore), gs ≠ [] → gs.foldlM upStep st = some st' →
    st'.store.isSome = true := by
  induction gs with
  | nil => intro st st' h; exact absurd rfl h
  | cons g rest ih =>
    intro st st' _ hf
    rw [List.foldlM_cons] at hf
    cases hu : upStep st g with
    | none => rw [hu] at hf; exact Option.noConfusion hf
    | some mid =>
      rw [hu] at hf
      have hf2 : rest.foldlM upStep mid = some st' := hf
      cases rest with
      | nil =>
        have hf3 : some mid = some st' := hf2
        injection hf3 with h'
        rw [← h']
        exact upStep_store_isSome st mid g hu
      | cons g2 r2 => exact ih mid st' (by simp) hf2

theorem updateDocuments_shape (st : VectorStore) (docs : List Doc) (r : VectorStore × Bool)
    (hne : docs.isEmpty = false) (h : updateDocuments st docs = some r) :
    ∃ st', (groupBySource docs).foldlM upStep st = some st' ∧ r = (st', true) := by
  unfold updateDocuments at h
  rw [if_neg (by simp [hne])] at h
  cases hf : (groupBySource docs).foldlM upStep st with
  | none => rw [hf] at h; exact Option.noConfusion h
  | some st' =>
    rw [hf] at h
    have h2 : some (st', true) = some r := h
    injection h2 with h'
    exact ⟨st', rfl, h'.symm⟩

theorem opEffective_isSome (st : VectorStore) (op : MutOp)
    (h : opEffective st op = true) : (applyPure st op).isSome = true := by
  cases op with
  | addOp docs => rfl
  | removeOp source =>
    unfold opEffective at h
    rw [Bool.and_eq_true] at h
    obtain ⟨h1, h2⟩ := h
    show (removeDocumentsBySource st source).isSome = true
    unfold removeDocumentsBySource
    cases hl : alookup source st.documentsBySource with
    | none => rfl
    | some l =>
      cases l with
      | nil => rw [hl] at h1; exact Bool.noConfusion h1
      | cons d0 ds =>
        cases hs : st.store with
        | none => rfl
        | some bs => rfl
  | updateOp docs =>
    unfold opEffective at h
    rw [Bool.and_eq_true] at h
    exact h.2

theorem opEffective_flag (st : VectorStore) (op : MutOp) (r : VectorStore × Bool)
    (h : opEffective st op = true) (hap : applyPure st op = some r) :
    r.2 = true := by
  cases op with
  | addOp docs =>
    have hap' : some (addDocuments st docs) = some r := hap
    injection hap' with h'
    rw [← h']
    rfl
  | removeOp source =>
    unfold opEffective at h
    rw [Bool.and_eq_true] at h
    obtain ⟨h1, h2⟩ := h
    have hap' : removeDocumentsBySource st source = some r := hap
    unfold removeDocumentsBySource at hap'
    cases hl : alookup source st.documentsBySource with
    | none => rw [hl] at h1; exact Bool.noConfusion h1
    | some l =>
      cases l with
      | nil => rw [hl] at h1; exact Bool.noConfusion h1
      | cons d0 ds =>
        cases hs : st.store with
        | none => rw [hs] at h2; exact Bool.noConfusion h2
        | some bs =>
          rw [hl, hs] at hap'
          injection hap' with h'
          rw [← h']
  | updateOp docs =>
    unfold opEffective at h
    rw [Bool.and_eq_true] at h
    obtain ⟨h1, h2⟩ := h
    have hne : docs.isEmpty = false := by
      revert h1; cases docs.isEmpty <;> simp
    obtain ⟨st', hf, hrr⟩ := updateDocuments_shape st docs r hne hap
    rw [hrr]

theorem opEffective_applyPure (st : VectorStore) (op : MutOp)
    (h : opEffective st op = true) :
    applyPure st op = some (nextVS st op, true) := by
  cases hap : applyPure st op with
  | none =>
    have := opEffective_isSome st op h
    rw [hap] at this
    exact Bool.noConfusion this
  | some r =>
    have hr2 : r.2 = true := opEffective_flag st op r h hap
    have hn : nextVS st op = r.1 := by
      unfold nextVS
      rw [hap]
      rfl
    rw [hn, ← hr2]

theorem remove_flag_true_store (st : VectorStore) (s : String) (st' : VectorStore)
    (h : removeDocumentsBySource st s = some (st', true)) :
    st'.store.isSome = true := by
  unfold removeDocumentsBySource at h
  cases hl : alookup s st.documentsBySource with
  | none => rw [hl] at h; simp at h
  | some l =>
    cases hs : st.store with
    | none => rw [hl, hs] at h; simp at h
    | some bs =>
      cases l with
      | nil => rw [hl, hs] at h; exact Option.noConfusion h
      | cons d0 ds =>
        rw [hl, hs] at h
        simp only [Option.some.injEq, Prod.mk.injEq] at h
        rw [← h.1]
        rfl

theorem opEffective_store (st : VectorStore) (op : MutOp)
    (h : opEffective st op = true) : (nextVS st op).store.isSome = true := by
  have hap := opEffective_applyPure st op h
  cases op with
  | addOp docs =>
    have he : nextVS st (MutOp.addOp docs) = (addDocuments st docs).1 := rfl
    rw [he]
    exact addDocuments_store_isSome st docs
  | removeOp source => exact remove_flag_true_store st source _ hap
  | updateOp docs =>
    unfold opEffective at h
    rw [Bool.and_eq_true] at h
    obtain ⟨h1, h2⟩ := h
    have hne : docs.isEmpty = false := by
      revert h1; cases docs.isEmpty <;> simp
    obtain ⟨st', hf, hrr⟩ := updateDocuments_shape st docs _ hne hap
    have hv : nextVS st (MutOp.updateOp docs) = st' := by
      rw [Prod.mk.injEq] at hrr
      exact hrr.1
    rw [hv]
    refine foldGroups_store_isSome (groupBySource docs) st st' ?_ hf
    exact groupBySource_ne_nil docs (by
      intro hd
      rw [hd] at hne
      exact Bool.noConfusion hne)

theorem runOps_armed (trace : List (Int × MutOp)) :
    ∀ (vs : VectorStore) (f : Int) (saves : Nat),
    vs.store.isSome = true → effectiveSeq vs trace = true →
    ∃ tsf, runOps ⟨vs, some f, saves⟩ trace = some tsf ∧
      totalWrites tsf = saves + 1 + countFires f (trace.map Prod.fst) := by
  induction trace with
  | nil =>
    intro vs f saves hs _
    exact ⟨_, rfl, by simp [totalWrites, countFires, hs]⟩
  | cons p rest ih =>
    obtain ⟨t, op⟩ := p
    intro vs f saves hs heff
    simp only [effectiveSeq, Bool.and_eq_true] at heff
    obtain ⟨h1, h2⟩ := heff
    have hap := opEffective_applyPure vs op h1
    have hstore' := opEffective_store vs op h1
    by_cases hft : f ≤ t
    · have hstep : applyMutOp ⟨vs, some f, saves⟩ t op =
          some ⟨nextVS vs op, some (t + SAVE_DELAY), saves + 1⟩ := by
        unfold applyMutOp fireTimerIfDue
        simp [hft, hs, hap]
      obtain ⟨tsf, hrun, hw⟩ := ih (nextVS vs op) (t + SAVE_DELAY) (saves + 1) hstore' h2
      refine ⟨tsf, ?_, ?_⟩
      · simp only [runOps, hstep, Option.some_bind]
        exact hrun
      · rw [hw]
        simp only [List.map_cons, countFires, if_pos hft]
        omega
    · have hstep : applyMutOp ⟨vs, some f, saves⟩ t op =
          some ⟨nextVS vs op, some (t + SAVE_DELAY), saves⟩ := by
        unfold applyMutOp fireTimerIfDue
        simp [hft, hap]
      obtain ⟨tsf, hrun, hw⟩ := ih (nextVS vs op) (t + SAVE_DELAY) saves hstore' h2
      refine ⟨tsf, ?_, ?_⟩
      · simp only [runOps, hstep, Option.some_bind]
        exact hrun
      · rw [hw]
        simp only [List.map_cons, countFires, if_neg hft]
        omega

theorem runOps_quiescent (vs0 : VectorStore) (t1 : Int) (op1 : MutOp)
    (rest : List (Int × MutOp))
    (heff : effectiveSeq vs0 ((t1, op1) :: rest) = true) :
    ∃ tsf, runOps ⟨vs0, none, 0⟩ ((t1, op1) :: rest) = some tsf ∧
      totalWrites tsf = 1 + countFires (t1 + SAVE_DELAY) (rest.map Prod.fst) := by
  simp only [effectiveSeq, Bool.and_eq_true] at heff
  obtain ⟨h1, h2⟩ := heff
  have hap := opEffective_applyPure vs0 op1 h1
  have hstore' := opEffective_store vs0 op1 h1
  have hstep : applyMutOp ⟨vs0, none, 0⟩ t1 op1 =
      some ⟨nextVS vs0 op1, some (t1 + SAVE_DELAY), 0⟩ := by
    unfold applyMutOp fireTimerIfDue
    simp [hap]
  obtain ⟨tsf, hrun, hw⟩ := runOps_armed rest (nextVS vs0 op1) (t1 + SAVE_DELAY) 0 hstore' h2
  refine ⟨tsf, ?_, ?_⟩
  · simp only [runOps, hstep, Option.some_bind]
    exact hrun
  · rw [hw]

theorem countFires_burst (ts : List Int) :
    ∀ prev, burstTimes prev ts = true → countFires (prev + SAVE_DELAY) ts = 0 := by
  induction ts with
  | nil => intro prev _; rfl
  | cons t rest ih =>
    intro prev h
    simp only [burstTimes, Bool.and_eq_true, decide_eq_true_eq] at h
    obtain ⟨⟨_, hlt⟩, hrest⟩ := h
    simp only [countFires, if_neg (by omega : ¬ prev + SAVE_DELAY ≤ t)]
    simpa using ih t hrest

theorem countFires_spaced (ts : List Int) :
    ∀ prev, spacedTimes prev ts = true → countFires (prev + SAVE_DELAY) ts = ts.length := by
  induction ts with
  | nil => intro prev _; rfl
  | cons t rest ih =>
    intro prev h
    simp only [spacedTimes, Bool.and_eq_true, decide_eq_true_eq] at h
    obtain ⟨hlt, hrest⟩ := h
    simp only [countFires, if_pos (by omega : prev + SAVE_DELAY ≤ t), List.length_cons]
    rw [ih t hrest]
    omega

/-- Claim C2 counterexample: a sequence consisting of one mutating call
(`removeDocumentsBySource` for an untracked source on the fresh store)
produces zero persistence writes, not exactly one: the call returns
before `scheduleSave`, so no timer is ever armed. -/
theorem debounce_claim_counterexample :
    runOps ⟨VectorStore.init, none, 0⟩ [((0 : Int), MutOp.removeOp "/a")] =
      some ⟨VectorStore.init, none, 0⟩ ∧
    totalWrites ⟨VectorStore.init, none, 0⟩ = 0 :=
  ⟨rfl, rfl⟩

/-- Claim C2 (amended): for every sequence of K ≥ 1 effective mutating
calls — calls that reach `scheduleSave`: any `addDocuments`,
`removeDocumentsBySource` of a tracked nonempty source on an
initialized index, `updateDocuments` of nonempty input — starting from
a quiescent store, if consecutive calls are separated by less than the
debounce delay then exactly one persistence write occurs, after the
last call; if consecutive calls are spaced beyond the delay, exactly K
writes occur. -/
theorem debounce_effective_spec (vs0 : VectorStore) (t1 : Int) (op1 : MutOp)
    (rest : List (Int × MutOp))
    (heff : effectiveSeq vs0 ((t1, op1) :: rest) = true) :
    (burstTimes t1 (rest.map Prod.fst) = true →
      ∃ tsf, runOps ⟨vs0, none, 0⟩ ((t1, op1) :: rest) = some tsf ∧
        totalWrites tsf = 1) ∧
    (spacedTimes t1 (rest.map Prod.fst) = true →
      ∃ tsf, runOps ⟨vs0, none, 0⟩ ((t1, op1) :: rest) = some tsf ∧
        totalWrites tsf = rest.length + 1) := by
  obtain ⟨tsf, hrun, hw⟩ := runOps_quiescent vs0 t1 op1 rest heff
  constructor
  · intro hburst
    refine ⟨tsf, hrun, ?_⟩
    rw [hw, countFires_burst (rest.map Prod.fst) t1 hburst]
  · intro hspaced
    refine ⟨tsf, hrun, ?_⟩
    rw [hw, countFires_spaced (rest.map Prod.fst) t1 hspaced]
    simp [Nat.add_comm]

theorem debounce_effective_spec_witness :
    effectiveSeq VectorStore.init [((0 : Int), MutOp.addOp []), ((2 : Int), MutOp.addOp [])] = true ∧
    burstTimes 0 (List.map Prod.fst [((2 : Int), MutOp.addOp [])]) = true ∧
    (∃ tsf, runOps ⟨VectorStore.init, none, 0⟩
        [((0 : Int), MutOp.addOp []), ((2 : Int), MutOp.addOp [])] = some tsf ∧
      totalWrites tsf = 1) :=
  ⟨by decide, by decide,
   (debounce_effective_spec VectorStore.init 0 (MutOp.addOp [])
     [((2 : Int), MutOp.addOp [])] (by decide)).1 (by decide)⟩

theorem handleFileChange_inflight_spec_witness :
    ("/a" ∉ (⟨[], []⟩ : WatcherState).processingQueue) ∧
    (∃ w1, enterInFlight ⟨[], []⟩ "/a" = some w1 ∧
      "/a" ∈ w1.processingQueue ∧
      (∀ calls, runBurstCalls w1 "/a" calls = (w1, 0)) ∧
      (∀ kind cb,
        (handleFileChange ⟨[], []⟩ kind "/a" cb).2.1 = 1 ∧
        (handleFileChange ⟨[], []⟩ kind "/a" cb).1.processingQueue =
          (⟨[], []⟩ : WatcherState).processingQueue ∧
        "/a" ∉ (handleFileChange ⟨[], []⟩ kind "/a" cb).1.processingQueue)) :=
  ⟨by decide, handleFileChange_inflight_spec ⟨[], []⟩ "/a" (by decide)⟩

/-! ### Ignore-pattern matching (claim C7) -/

/-- Render a path from its segments, with or without a leading
separator. -/
def renderPath (abs : Bool) (segs : List String) : String :=
  (if abs then "/" else "") ++ joinParts segs

/-- A proper path segment: nonempty, not one of the special names
`"."`/`".."`, and free of the separator. -/
def cleanSeg (s : String) : Bool :=
  !(s = "" : Bool) && !(s = "." : Bool) && !(s = ".." : Bool) &&
  !(s.data.any (fun c => c = '/'))

theorem cleanSeg_unpack (s : String) (h : cleanSeg s = true) :
    s ≠ "" ∧ s ≠ "." ∧ s ≠ ".." ∧ '/' ∉ s.data := by
  unfold cleanSeg at h
  rw [Bool.and_eq_true, Bool.and_eq_true, Bool.and_eq_true] at h
  obtain ⟨⟨⟨h1, h2⟩, h3⟩, h4⟩ := h
  refine ⟨?_, ?_, ?_, ?_⟩
  · intro he; rw [he] at h1; simp at h1
  · intro he; rw [he] at h2; simp at h2
  · intro he; rw [he] at h3; simp at h3
  · intro hm
    have hany : s.data.any (fun c => c = '/') = true :=
      List.any_eq_true.mpr ⟨'/', hm, by simp⟩
    rw [hany] at h4
    simp at h4

theorem data_ne_nil (s : String) (h : s ≠ "") : s.data ≠ [] := by
  intro hd
  apply h
  have hs : s = String.mk s.data := rfl
  rw [hs, hd]

theorem splitChar_cons_sep (c : Char) (l : List Char) :
    splitChar c (c :: l) = [] :: splitChar c l := by
  simp [splitChar]

theorem splitChar_no_sep (c : Char) (l : List Char) (h : c ∉ l) :
    splitChar c l = [l] := by
  induction l with
  | nil => rfl
  | cons x xs ih =>
    have hx : ¬x = c := fun he => h (by rw [he]; exact List.mem_cons_self c xs)
    have hxs : c ∉ xs := fun hm => h (List.mem_cons_of_mem x hm)
    simp only [splitChar, if_neg hx, ih hxs]

theorem splitChar_ne_nil (c : Char) (l : List Char) : splitChar c l ≠ [] := by
  cases l with
  | nil => simp [splitChar]
  | cons x xs =>
    simp only [splitChar]
    by_cases hx : x = c
    · simp [hx]
    · simp only [if_neg hx]
      cases hr : splitChar c xs with
      | nil => simp
      | cons h t => simp

theorem splitChar_cons_ne (c x : Char) (xs : List Char) (hx : ¬x = c) :
    splitChar c (x :: xs) =
      (match splitChar c xs with
       | [] => [[x]]
       | h :: t => (x :: h) :: t) := by
  simp [splitChar, hx]

theorem splitChar_sep_append (c : Char) (l rest : List Char) (h : c ∉ l) :
    splitChar c (l ++ c :: rest) = l :: splitChar c rest := by
  induction l with
  | nil => exact splitChar_cons_sep c rest
  | cons x xs ih =>
    have hx : ¬x = c := fun he => h (by rw [he]; exact List.mem_cons_self c xs)
    have hxs : c ∉ xs := fun hm => h (List.mem_cons_of_mem x hm)
    rw [List.cons_append, splitChar_cons_ne c x _ hx, ih hxs]

theorem joinChar_cons_of_ne_nil (c : Char) (l : List Char) (ls : List (List Char))
    (h : ls ≠ []) : joinChar c (l :: ls) = l ++ c :: joinChar c ls := by
  cases ls with
  | nil => exact absurd rfl h
  | cons l2 ls2 => rfl

theorem splitChar_joinChar (c : Char) (ls : List (List Char)) :
    ls ≠ [] → (∀ l ∈ ls, c ∉ l) → splitChar c (joinChar c ls) = ls := by
  induction ls with
  | nil => intro h _; exact absurd rfl h
  | cons l rest ih =>
    intro _ hc
    cases rest with
    | nil =>
      show splitChar c l = [l]
      exact splitChar_no_sep c l (hc l (List.mem_cons_self l []))
    | cons l2 rest2 =>
      rw [joinChar_cons_of_ne_nil c l (l2 :: rest2) (List.cons_ne_nil l2 rest2),
        splitChar_sep_append c l _ (hc l (List.mem_cons_self l (l2 :: rest2))),
        ih (List.cons_ne_nil l2 rest2) (fun l' hl' => hc l' (List.mem_cons_of_mem l hl'))]

theorem renderPath_data (abs : Bool) (segs : List String) :
    (renderPath abs segs).data =
      (if abs then ['/'] else []) ++ joinChar '/' (segs.map String.data) := by
  unfold renderPath joinParts
  rw [String.data_append]
  cases abs <;> rfl

theorem joinChar_head (c : Char) (ch : Char) (t : List Char) (ls : List (List Char)) :
    ∃ t', joinChar c ((ch :: t) :: ls) = ch :: t' := by
  cases ls with
  | nil => exact ⟨t, rfl⟩
  | cons l2 ls2 => exact ⟨t ++ c :: joinChar c (l2 :: ls2), rfl⟩

theorem joinChar_last_suffix (c : Char) (l : List Char) :
    ∀ ls : List (List Char), ∃ pref, joinChar c (ls ++ [l]) = pref ++ l := by
  intro ls
  induction ls with
  | nil => exact ⟨[], rfl⟩
  | cons a as ih =>
    obtain ⟨pref, hp⟩ := ih
    refine ⟨a ++ c :: pref, ?_⟩
    rw [List.cons_append,
      joinChar_cons_of_ne_nil c a (as ++ [l]) (by simp), hp]
    simp

theorem normSegs_skip_special (b : Bool) (acc : List String) (s : String)
    (rest : List String) (h : s = "" ∨ s = ".") :
    normSegs b acc (s :: rest) = normSegs b acc rest := by
  simp [normSegs, h]

theorem normSegs_clean (b : Bool) :
    ∀ (segs : List String) (acc : List String),
    (∀ s ∈ segs, s ≠ "" ∧ s ≠ "." ∧ s ≠ "..") →
    normSegs b acc segs = acc.reverse ++ segs := by
  intro segs
  induction segs with
  | nil => intro acc _; simp [normSegs]
  | cons s rest ih =>
    intro acc h
    obtain ⟨h1, h2, h3⟩ := h s (List.mem_cons_self s rest)
    have hs : ¬(s = "" ∨ s = ".") := by
      intro hor
      rcases hor with ha | hb
      · exact h1 ha
      · exact h2 hb
    simp only [normSegs, if_neg hs, if_neg h3]
    rw [ih (s :: acc) (fun s' hs' => h s' (List.mem_cons_of_mem s hs'))]
    simp

theorem str_of_data_eq (a b : String) (h : a.data = b.data) : a = b := by
  have ha : a = String.mk a.data := rfl
  have hb : b = String.mk b.data := rfl
  rw [ha, hb, h]

theorem strAppendEmpty (s : String) : s ++ "" = s := by
  apply str_of_data_eq
  rw [String.data_append]
  simp [show ("" : String).data = [] from rfl]

theorem mapMkData : ∀ ps : List String, (ps.map String.data).map String.mk = ps
  | [] => rfl
  | s :: rest => by
    rw [List.map_cons, List.map_cons, mapMkData rest]

theorem data_cons_of_clean (s : String) (h : s ≠ "") :
    ∃ ch t, s.data = ch :: t := by
  cases hd : s.data with
  | nil => exact absurd hd (data_ne_nil s h)
  | cons ch t => exact ⟨ch, t, rfl⟩

theorem renderPath_parts (abs : Bool) (segs : List String)
    (hne : segs ≠ []) (hnosl : ∀ s ∈ segs, '/' ∉ s.data) :
    pathParts (renderPath abs segs) = (if abs then "" :: segs else segs) := by
  unfold pathParts
  rw [renderPath_data]
  have hmapne : segs.map String.data ≠ [] := by
    intro he
    exact hne (List.map_eq_nil_iff.mp he)
  have hmapnosl : ∀ l ∈ segs.map String.data, '/' ∉ l := by
    intro l hl
    obtain ⟨s, hs, hsl⟩ := List.mem_map.mp hl
    rw [← hsl]
    exact hnosl s hs
  cases abs
  · simp only [Bool.false_eq_true, if_false, List.nil_append]
    rw [splitChar_joinChar '/' (segs.map String.data) hmapne hmapnosl]
    exact mapMkData segs
  · simp only [if_true, List.singleton_append]
    rw [splitChar_cons_sep,
      splitChar_joinChar '/' (segs.map String.data) hmapne hmapnosl,
      List.map_cons, mapMkData segs]

theorem renderPath_ne_empty (abs : Bool) (segs : List String)
    (hne : segs ≠ []) (hclean : ∀ s ∈ segs, cleanSeg s = true) :
    renderPath abs segs ≠ "" := by
  cases segs with
  | nil => exact absurd rfl hne
  | cons s1 rest =>
    intro he
    have hd : (renderPath abs (s1 :: rest)).data = [] := by rw [he]
    rw [renderPath_data, List.map_cons] at hd
    obtain ⟨h1, _, _, _⟩ := cleanSeg_unpack s1 (hclean s1 (List.mem_cons_self s1 rest))
    obtain ⟨ch, t, hdatas⟩ := data_cons_of_clean s1 h1
    rw [hdatas] at hd
    obtain ⟨t', ht'⟩ := joinChar_head '/' ch t (rest.map String.data)
    rw [ht'] at hd
    cases abs <;> simp at hd

theorem renderPath_headIsSlash (abs : Bool) (segs : List String)
    (hne : segs ≠ []) (hclean : ∀ s ∈ segs, cleanSeg s = true) :
    headIsSlash (renderPath abs segs) = abs := by
  unfold headIsSlash
  rw [renderPath_data]
  cases segs with
  | nil => exact absurd rfl hne
  | cons s1 rest =>
    obtain ⟨h1, _, _, h4⟩ := cleanSeg_unpack s1 (hclean s1 (List.mem_cons_self s1 rest))
    obtain ⟨ch, t, hdatas⟩ := data_cons_of_clean s1 h1
    rw [List.map_cons, hdatas]
    obtain ⟨t', ht'⟩ := joinChar_head '/' ch t (rest.map String.data)
    rw [ht']
    have hch : ¬ch = '/' := by
      intro he
      apply h4
      rw [hdatas, he]
      exact List.mem_cons_self '/' t
    cases abs
    · simp [hch]
    · simp

theorem renderPath_lastIsSlash (abs : Bool) (pre : List String) (p : String)
    (hp : cleanSeg p = true) :
    lastIsSlash (renderPath abs (pre ++ [p])) = false := by
  unfold lastIsSlash
  rw [renderPath_data]
  obtain ⟨h1, _, _, h4⟩ := cleanSeg_unpack p hp
  rw [List.map_append]
  simp only [List.map_cons, List.map_nil]
  obtain ⟨pref, hpref⟩ := joinChar_last_suffix '/' p.data (pre.map String.data)
  rw [hpref, ← List.append_assoc, List.getLast?_append]
  obtain ⟨ch, t, hdatas⟩ := data_cons_of_clean p h1
  have hlast : p.data.getLast? = some (p.data.getLast (by rw [hdatas]; simp)) := by
    rw [List.getLast?_eq_getLast]
  rw [hlast]
  have hmem := List.getLast_mem (l := p.data) (by rw [hdatas]; simp)
  have hch : ¬p.data.getLast (by rw [hdatas]; simp) = '/' := by
    intro he
    exact h4 (he ▸ hmem)
  simp [hch]

theorem normalizeStr_renderPath (abs : Bool) (segs : List String)
    (hne : segs ≠ []) (hclean : ∀ s ∈ segs, cleanSeg s = true)
    (hlast : lastIsSlash (renderPath abs segs) = false) :
    normalizeStr (renderPath abs segs) = renderPath abs segs := by
  have hnosl : ∀ s ∈ segs, '/' ∉ s.data :=
    fun s hs => (cleanSeg_unpack s (hclean s hs)).2.2.2
  have hn0 := renderPath_ne_empty abs segs hne hclean
  have hspecial : ∀ s ∈ segs, s ≠ "" ∧ s ≠ "." ∧ s ≠ ".." := by
    intro s hs
    obtain ⟨a, b, c, _⟩ := cleanSeg_unpack s (hclean s hs)
    exact ⟨a, b, c⟩
  have hnsegs : normSegs (!abs) [] (if abs then "" :: segs else segs) = segs := by
    cases abs
    · simp only [Bool.false_eq_true, if_false]
      rw [normSegs_clean (!false) segs [] hspecial]
      rfl
    · simp only [if_true]
      rw [normSegs_skip_special (!true) [] "" segs (Or.inl rfl),
        normSegs_clean (!true) segs [] hspecial]
      rfl
  have hsegsne : segs.isEmpty = false := by
    cases segs with
    | nil => exact absurd rfl hne
    | cons a b => rfl
  unfold normalizeStr
  rw [if_neg hn0]
  simp only [renderPath_headIsSlash abs segs hne hclean, hlast,
    renderPath_parts abs segs hne hnosl, hnsegs, hsegsne]
  cases abs
  · simp only [Bool.false_eq_true, if_false, strAppendEmpty]
    rfl
  · simp only [if_true, Bool.false_eq_true, if_false, strAppendEmpty]
    rfl

theorem basenameStr_renderPath (abs : Bool) (pre : List String) (p : String)
    (hclean : ∀ s ∈ pre ++ [p], cleanSeg s = true) :
    basenameStr (renderPath abs (pre ++ [p])) = p := by
  have hnosl : ∀ s ∈ pre ++ [p], '/' ∉ s.data :=
    fun s hs => (cleanSeg_unpack s (hclean s hs)).2.2.2
  obtain ⟨hp1, _, _, _⟩ := cleanSeg_unpack p (hclean p (by simp))
  unfold basenameStr
  rw [renderPath_parts abs (pre ++ [p]) (by simp) hnosl]
  cases abs
  · simp only [Bool.false_eq_true, if_false]
    rw [List.reverse_append]
    show ((p :: pre.reverse).dropWhile (fun seg => seg = "")).headD "" = p
    rw [List.dropWhile_cons_of_neg (by simp [hp1])]
    rfl
  · simp only [if_true]
    rw [List.reverse_cons, List.reverse_append]
    show (((p :: pre.reverse) ++ [""]).dropWhile (fun seg => seg = "")).headD "" = p
    rw [List.cons_append, List.dropWhile_cons_of_neg (by simp [hp1])]
    rfl

/-- Claim C7: with patterns loaded, every ignore pattern that is a plain
name — no wildcard characters (`*`, `?`, `[`), no leading or trailing
separator, a proper path segment — makes `shouldIgnore` return true on
every path whose final segment exactly equals the pattern, at any depth
(any clean segment prefix, absolute or relative), both when
`isDirectory` is true and when it is false, whatever the external
`minimatch` does. -/
theorem shouldIgnore_basename_spec (mm : String → String → Bool) (m : IgnoreMatcher)
    (p : String) (pre : List String) (abs isDir : Bool)
    (hload : m.loaded = true)
    (hp : p ∈ m.patterns)
    (hnw : (strHasChar p '*' || strHasChar p '?' || strHasChar p '[') = false)
    (hpclean : cleanSeg p = true)
    (hpre : ∀ s ∈ pre, cleanSeg s = true) :
    shouldIgnore mm m (renderPath abs (pre ++ [p])) isDir = true := by
  have hclean : ∀ s ∈ pre ++ [p], cleanSeg s = true := by
    intro s hs
    rcases List.mem_append.mp hs with h1 | h2
    · exact hpre s h1
    · rw [List.mem_singleton.mp h2]
      exact hpclean
  have hbn : basenameStr (normalizeStr (renderPath abs (pre ++ [p]))) = p := by
    rw [normalizeStr_renderPath abs (pre ++ [p]) (by simp) hclean
      (renderPath_lastIsSlash abs pre p hpclean)]
    exact basenameStr_renderPath abs pre p hclean
  have hhead : headIsSlash p = false := by
    obtain ⟨h1, _, _, h4⟩ := cleanSeg_unpack p hpclean
    unfold headIsSlash
    cases hd : p.data with
    | nil => rfl
    | cons c t =>
      have hcm : c ∈ p.data := by
        rw [hd]
        exact List.mem_cons_self c t
      have hch : ¬c = '/' := fun he => h4 (he ▸ hcm)
      simp [hch]
  have hpat : m.patterns.isEmpty = false := by
    cases hpats : m.patterns with
    | nil => rw [hpats] at hp; exact absurd hp (List.not_mem_nil p)
    | cons a b => rfl
  unfold shouldIgnore
  have hguard : (!m.loaded || m.patterns.isEmpty) = false := by
    rw [hload, hpat]
    rfl
  rw [hguard]
  simp only [Bool.false_eq_true, if_false]
  refine List.any_eq_true.mpr ⟨p, hp, ?_⟩
  simp [patternMatches, hhead, hbn]

theorem shouldIgnore_basename_spec_witness :
    (⟨["node_modules"], true, []⟩ : IgnoreMatcher).loaded = true ∧
    "node_modules" ∈ (⟨["node_modules"], true, []⟩ : IgnoreMatcher).patterns ∧
    (strHasChar "node_modules" '*' || strHasChar "node_modules" '?' ||
      strHasChar "node_modules" '[') = false ∧
    cleanSeg "node_modules" = true ∧
    (∀ s ∈ ["a", "b"], cleanSeg s = true) ∧
    shouldIgnore (fun _ _ => false) ⟨["node_modules"], true, []⟩
      (renderPath true (["a", "b"] ++ ["node_modules"])) false = true :=
  ⟨rfl, by decide, by decide, by decide, by decide,
   shouldIgnore_basename_spec (fun _ _ => false) ⟨["node_modules"], true, []⟩
     "node_modules" ["a", "b"] true false rfl (by decide) (by decide) (by decide)
     (by decide)⟩

end SFVS
